import Mathlib

/-!
Verification of the Jarilo task-orchestration engine.

Shallow embedding of the core orchestration code:
  * `should_continue`, `planner_node`, `critique_node`, `executor_node`,
    `reflection_node` and the compiled graph wiring
    (src/brain/src/orchestration/graph.py);
  * `PlanExecuteAgent.validate_plan`, `_has_circular_dependencies`,
    `execute_plan`, `execute_step`, `retry_step`, result synthesis and the
    planning phase of `plan_and_execute`
    (src/brain/src/orchestration/plan_execute_agent.py);
  * `ToolResult.__add__` (src/brain/src/tools/base.py);
  * `IntegratedOrchestrator._select_strategy` and `_estimate_confidence`
    (src/brain/src/orchestration/integrated_graph.py).

External effects (the reasoning provider, tool implementations, wall-clock
time) are modelled as explicit oracle arguments, so every run of the embedded
code is a pure function of the initial data and the oracles.
-/

namespace Jarilo

/-- Python's substring containment `pat in s`, on lists of characters:
`pat` occurs contiguously inside `s`. -/
def listIsSub (pat : List Char) : List Char → Bool
  | [] => pat.isEmpty
  | c :: rest => pat.isPrefixOf (c :: rest) || listIsSub pat rest

/-- Python's `pat in s` for strings (contiguous substring test). -/
def strIn (pat s : String) : Bool :=
  listIsSub pat.toList s.toList

/-! ## ToolResult (src/brain/src/tools/base.py) -/

/-- Embeds the frozen dataclass `ToolResult` with its three optional string
fields. `none` stands for Python `None`. -/
structure ToolResult where
  output : Option String := none
  error : Option String := none
  system : Option String := none
deriving DecidableEq

/-- Python truthiness of an `Optional[str]`: `None` and `""` are falsy. -/
def truthy : Option String → Bool
  | none => false
  | some s => !(s == "")

/-- Python's `field or other_field` on optional strings. -/
def pyOr (a b : Option String) : Option String :=
  if truthy a then a else b

/-- Embeds `combine_fields` from `ToolResult.__add__`: when both fields are
truthy, concatenate them if `concatenate` is set, otherwise raise
`ValueError("Cannot combine tool results")`; when at most one is truthy,
return `field or other_field`. -/
def combine_fields (f o : Option String) (concatenate : Bool := true) :
    Except String (Option String) :=
  if truthy f && truthy o then
    if concatenate then
      Except.ok (some (f.getD "" ++ o.getD ""))
    else
      Except.error "Cannot combine tool results"
  else
    Except.ok (pyOr f o)

/-- Embeds `ToolResult.__add__`: every field is combined by `combine_fields`
with the default `concatenate := true` (all three call sites omit the flag). -/
def ToolResult.add (a b : ToolResult) : Except String ToolResult := do
  let o ← combine_fields a.output b.output
  let e ← combine_fields a.error b.error
  let s ← combine_fields a.system b.system
  Except.ok { output := o, error := e, system := s }

/-- The merge behaviour stated by the amended claim: matching truthy fields
are concatenated (even when their values differ), otherwise the single truthy
side is kept. -/
def mergeFieldSpec (f o : Option String) : Option String :=
  if truthy f && truthy o then some (f.getD "" ++ o.getD "") else pyOr f o

/-! ## Strategy selector (src/brain/src/orchestration/integrated_graph.py) -/

/-- The three execution strategies returned by `_select_strategy`. The spec
calls `plan_execute` the "step_scheduler" mode and `langgraph` the
"state_machine" mode. -/
inductive Strategy where
  | langgraph
  | plan_execute
  | hybrid
deriving DecidableEq

/-- Embeds `IntegratedOrchestrator._select_strategy`: plugins required →
plan_execute; complexity ≥ 8 → plan_execute; complexity ≤ 4 → langgraph;
otherwise hybrid. -/
def select_strategy (complexity : Int) (required_plugins : List String) :
    Strategy :=
  if required_plugins ≠ [] then .plan_execute
  else if 8 ≤ complexity then .plan_execute
  else if complexity ≤ 4 then .langgraph
  else .hybrid

/-- The selection rule as the claim words it: step_scheduler when a required
capability is matched or complexity is at or above the high threshold,
state_machine when complexity is at or below the low threshold, hybrid
otherwise. -/
def select_strategy_spec (complexity : Int) (required_plugins : List String) :
    Strategy :=
  if required_plugins ≠ [] ∨ 8 ≤ complexity then .plan_execute
  else if complexity ≤ 4 then .langgraph
  else .hybrid

/-- Embeds `IntegratedOrchestrator._estimate_confidence`: base 0.7, plus a
strategy modifier, plus a tool-availability modifier capped at 0.1, plus a
plugin-match modifier capped at 0.15, the sum capped at 0.95. Python floats
are modelled by exact rationals. -/
def estimate_confidence (strategy : Strategy) (tool_count : Nat)
    (required_plugins available_plugins : List String) : ℚ :=
  let base_confidence : ℚ := 0.7
  let strategy_modifier : ℚ :=
    match strategy with
    | .langgraph => 0.1
    | .plan_execute => 0.15
    | .hybrid => 0.05
  let tool_modifier : ℚ := min ((tool_count : ℚ) * 0.02) 0.1
  let plugin_modifier : ℚ :=
    min (((required_plugins.dedup.filter (· ∈ available_plugins)).length : ℚ)
      * 0.05) 0.15
  min (base_confidence + strategy_modifier + tool_modifier + plugin_modifier)
    0.95

/-! ## Orchestration state machine (src/brain/src/orchestration/graph.py) -/

/-- Embeds the LangGraph `GraphState` TypedDict. The code treats a missing or
`None` plan exactly like the empty list everywhere, so `plan` is a plain
list. Tool calls are abstracted to strings (their content is never inspected
by the routing logic). -/
structure GraphState where
  task_description : String
  plan : List String
  critique : String
  tool_calls : List String
  tool_results : List String
  replan_attempts : Nat
  error : String
deriving DecidableEq

/-- The four possible answers of `should_continue`; `finish` stands for the
LangGraph `END` sentinel. -/
inductive RouteTarget where
  | reflection_node
  | planner_node
  | executor_node
  | finish
deriving DecidableEq

/-- Embeds `should_continue`: the conditional-edge router run after the
critique node. -/
def should_continue (s : GraphState) : RouteTarget :=
  if 3 ≤ s.replan_attempts then .finish
  else if s.error ≠ "" then .reflection_node
  else if s.plan.isEmpty ∧ s.critique = "" then .planner_node
  else if s.plan.isEmpty ∧ s.critique ≠ "" then .finish
  else if strIn "good" s.critique = false ∧ s.replan_attempts < 3 then
    .planner_node
  else if strIn "good" s.critique = true ∧ ¬ s.plan.isEmpty then
    .executor_node
  else .finish

/-- The routing function as the claim's ordered decision list words it:
END at the cap, else reflection on error, else planner on empty plan and
empty critique, else END on empty plan and non-empty critique, else planner
when "good" does not occur in the critique and the counter is below the cap,
else executor when "good" occurs and the plan is non-empty, else END. -/
def route_spec (s : GraphState) : RouteTarget :=
  if 3 ≤ s.replan_attempts then .finish
  else if s.error ≠ "" then .reflection_node
  else if s.plan.isEmpty ∧ s.critique = "" then .planner_node
  else if s.plan.isEmpty ∧ s.critique ≠ "" then .finish
  else if ¬ (strIn "good" s.critique = true) ∧ s.replan_attempts < 3 then
    .planner_node
  else if strIn "good" s.critique = true ∧ s.plan ≠ [] then .executor_node
  else .finish

/-- One invocation's worth of nondeterministic outcomes of the external
world: the plan the planner would produce when it generates (OpenAI answer,
fallback keyword logic, or exception fallback), the critique text, the tool
calls/results and final error the executor loop would accumulate, and the
plan reflection would produce. -/
structure ProviderInput where
  gen_plan : List String
  critique_text : String
  exec_calls : List String
  exec_results : List String
  exec_error : String
  refl_plan : List String
deriving DecidableEq

/-- Embeds `planner_node`: reuse an existing non-empty plan that contains no
"Fallback" step when `replan_attempts == 0`; otherwise install the generated
plan. Every return path emits empty `tool_calls`/`tool_results` and
`error = ""`. -/
def planner_node (s : GraphState) (inp : ProviderInput) : GraphState :=
  if ¬ s.plan.isEmpty ∧ (¬ s.plan.any (fun st => strIn "Fallback" st))
      ∧ s.replan_attempts = 0 then
    { s with tool_calls := [], tool_results := [], error := "" }
  else
    { s with plan := inp.gen_plan, tool_calls := [], tool_results := [],
             error := "" }

/-- Embeds `critique_node`: only the critique text changes; plan, tool data,
counter and error are passed through. -/
def critique_node (s : GraphState) (inp : ProviderInput) : GraphState :=
  { s with critique := inp.critique_text }

/-- Embeds `executor_node`: tool calls and results are appended, the plan and
critique are kept, and the error field is set to whatever the step loop left
in it. -/
def executor_node (s : GraphState) (inp : ProviderInput) : GraphState :=
  { s with tool_calls := s.tool_calls ++ inp.exec_calls,
           tool_results := s.tool_results ++ inp.exec_results,
           error := inp.exec_error }

/-- Embeds `reflection_node`: installs the corrected plan, clears the
critique and the error, and increments `replan_attempts`. -/
def reflection_node (s : GraphState) (inp : ProviderInput) : GraphState :=
  { s with plan := inp.refl_plan, critique := "",
           replan_attempts := s.replan_attempts + 1, error := "" }

/-- The graph's control locations: the four nodes plus the terminal END. -/
inductive GraphNode where
  | planner
  | critique
  | executor
  | reflection
  | finished
deriving DecidableEq

/-- One transition of the compiled graph, as wired in graph.py: entry at
planner, a fixed edge planner → critique, conditional edges after critique
via `should_continue`, a fixed edge reflection → planner, and no outgoing
edge from executor (a LangGraph dead-end node ends the run). -/
def graph_step (c : GraphNode × GraphState) (inp : ProviderInput) :
    GraphNode × GraphState :=
  match c.1 with
  | .planner => (.critique, planner_node c.2 inp)
  | .critique =>
      let s := critique_node c.2 inp
      (match should_continue s with
       | .reflection_node => .reflection
       | .planner_node => .planner
       | .executor_node => .executor
       | .finish => .finished, s)
  | .executor => (.finished, executor_node c.2 inp)
  | .reflection => (.planner, reflection_node c.2 inp)
  | .finished => c

/-- The initial state a run starts from (as built by the callers of the
compiled graph): empty plan, empty critique, zero replan attempts. -/
def init_state (task : String) : GraphState :=
  { task_description := task, plan := [], critique := "", tool_calls := [],
    tool_results := [], replan_attempts := 0, error := "" }

/-- The run of the outer state machine under a stream of provider
outcomes. -/
def graph_run (task : String) (provider : Nat → ProviderInput) :
    Nat → GraphNode × GraphState
  | 0 => (.planner, init_state task)
  | n + 1 => graph_step (graph_run task provider n) (provider n)

/-- A provider whose critiques never contain "good": a reachable behaviour of
the OpenAI-backed critique node. -/
def stubborn_provider : Nat → ProviderInput := fun _ =>
  { gen_plan := ["step one"], critique_text := "bad", exec_calls := [],
    exec_results := [], exec_error := "", refl_plan := [] }

/-- A provider whose critiques always approve the plan. -/
def agreeable_provider : Nat → ProviderInput := fun _ =>
  { gen_plan := ["step one"], critique_text := "good", exec_calls := [],
    exec_results := [], exec_error := "", refl_plan := [] }

/-! ## Step scheduler (src/brain/src/orchestration/plan_execute_agent.py) -/

/-- Embeds the `StepStatus` enum. -/
inductive StepStatus where
  | pending
  | running
  | success
  | failed
  | retrying
  | skipped
deriving DecidableEq

/-- Embeds the `StepPriority` enum. -/
inductive StepPriority where
  | low
  | medium
  | high
  | critical
deriving DecidableEq

/-- The numeric value of a priority, as in the Python enum. -/
def StepPriority.val : StepPriority → Nat
  | .low => 1
  | .medium => 2
  | .high => 3
  | .critical => 4

/-- Embeds the `Step` dataclass. Tool results are abstracted to optional
strings (`none` is Python `None`) and float fields to exact rationals. -/
structure Step where
  id : String
  description : String
  tool : String
  parameters : List (String × String) := []
  status : StepStatus := .pending
  priority : StepPriority := .medium
  dependencies : List String := []
  retry_count : Nat := 0
  max_retries : Nat := 3
  timeout : Nat := 30
  result : Option String := none
  error : Option String := none
  execution_time : ℚ := 0
  confidence : ℚ := mkRat 4 5
deriving DecidableEq

/-- Embeds the `ExecutionPlan` dataclass. -/
structure ExecutionPlan where
  id : String
  task_description : String
  steps : List Step
  estimated_time : Nat := 0
  confidence : ℚ := mkRat 4 5
  created_at : ℚ := 0
  metadata : List (String × String) := []
deriving DecidableEq

/-- The ids of the steps of a plan (`step_ids` in `validate_plan`). -/
def step_ids (steps : List Step) : List String :=
  steps.map (fun s => s.id)

/-- The dependency list the DFS sees for an id: the dependencies of the first
step with that id (`next((s for s in steps if s.id == step_id), None)`), or
nothing when no step has the id. -/
def adjacency (steps : List Step) (u : String) : List String :=
  match steps.find? (fun s => s.id == u) with
  | some s => s.dependencies
  | none => []

/-- The dependency edge relation of a plan: `a` depends on `b`. -/
def Edge (steps : List Step) (a b : String) : Prop :=
  b ∈ adjacency steps a

/-- A plan has a dependency cycle when some id reaches itself through one or
more dependency edges. -/
def Cyclic (steps : List Step) : Prop :=
  ∃ a, Relation.TransGen (Edge steps) a a

/-- All ids that the depth-first search can ever visit: the step ids plus
every id mentioned in some dependency list. -/
def all_ids (steps : List Step) : List String :=
  steps.map (fun s => s.id) ++ (steps.map (fun s => s.dependencies)).flatten

/-- The inner loop of `has_cycle`: walk the dependency list of the current
node, recursing (through `visit`) into unvisited ids, reporting a cycle when
a dependency is already on the recursion stack, and threading the visited
set. -/
def dfs_deps (visit : String → List String → List String →
    Option (Bool × List String)) :
    List String → List String → List String → Option (Bool × List String)
  | [], visited, _ => some (false, visited)
  | dep :: rest, visited, rec_stack =>
    if dep ∈ visited then
      if dep ∈ rec_stack then some (true, visited)
      else dfs_deps visit rest visited rec_stack
    else
      match visit dep visited rec_stack with
      | none => none
      | some (true, visited') => some (true, visited')
      | some (false, visited') => dfs_deps visit rest visited' rec_stack

/-- Embeds `has_cycle` from `_has_circular_dependencies`: mark the node
visited and on the recursion stack, then walk its dependencies. The fuel
argument bounds the recursion depth (the Python recursion is bounded by the
number of distinct ids, and `fuel_of` below always suffices). -/
def dfs_visit (steps : List Step) :
    Nat → String → List String → List String → Option (Bool × List String)
  | 0, _, _, _ => none
  | fuel + 1, u, visited, rec_stack =>
    dfs_deps (dfs_visit steps fuel) (adjacency steps u) (u :: visited)
      (u :: rec_stack)

/-- Fuel that always suffices for the depth-first search. -/
def fuel_of (steps : List Step) : Nat :=
  (all_ids steps).length + 1

/-- Embeds the outer loop of `_has_circular_dependencies`: start a search
from every not-yet-visited step id. -/
def dfs_forest (steps : List Step) (fuel : Nat) :
    List Step → List String → Option (Bool × List String)
  | [], visited => some (false, visited)
  | s :: rest, visited =>
    if s.id ∈ visited then dfs_forest steps fuel rest visited
    else
      match dfs_visit steps fuel s.id visited [] with
      | none => none
      | some (true, visited') => some (true, visited')
      | some (false, visited') => dfs_forest steps fuel rest visited'

/-- Embeds `_has_circular_dependencies`. The `none` branch is unreachable
(`dfs_total` below); it is mapped to `true` so that soundness must be proved
through the totality argument rather than assumed. -/
def has_circular_dependencies (steps : List Step) : Bool :=
  match dfs_forest steps (fuel_of steps) steps [] with
  | some (b, _) => b
  | none => true

/-- Embeds `validate_plan`: an issue for every step whose tool is not
registered, an issue for every dependency id that is not a step id of the
plan, an issue when the dependency graph has a cycle; valid iff no issues. -/
def validate_plan (registry : List String) (plan : ExecutionPlan) :
    Bool × List String :=
  let tool_issues := plan.steps.filterMap (fun s =>
    if s.tool ∈ registry then none
    else some ("Шаг " ++ s.id ++ ": инструмент " ++ s.tool ++ " не найден"))
  let dep_issues := (plan.steps.map (fun s =>
    s.dependencies.filterMap (fun dep =>
      if dep ∈ step_ids plan.steps then none
      else some ("Шаг " ++ s.id ++ ": зависимость " ++ dep
        ++ " не найдена")))).flatten
  let cyc_issues :=
    if has_circular_dependencies plan.steps then
      ["Обнаружены циклические зависимости"]
    else []
  let issues := tool_issues ++ dep_issues ++ cyc_issues
  (issues.isEmpty, issues)

/-- Invariant of the search: a finished ("black") node — visited and not on
the recursion stack — only has dependency edges into finished nodes. -/
def BlacksClosed (steps : List Step) (visited rec_stack : List String) :
    Prop :=
  ∀ u ∈ visited, u ∉ rec_stack →
    ∀ w, Edge steps u w → w ∈ visited ∧ w ∉ rec_stack

/-- Invariant of the search: no finished node lies on a dependency cycle. -/
def NoBlackCycle (steps : List Step) (visited rec_stack : List String) :
    Prop :=
  ∀ u ∈ visited, u ∉ rec_stack → ¬ Relation.TransGen (Edge steps) u u

/-- Invariant of the recursion stack: consecutive entries are dependency
edges (each entry is a dependency of the entry below it). -/
def StackChain (steps : List Step) : List String → Prop
  | [] => True
  | [_] => True
  | a :: b :: t => Edge steps b a ∧ StackChain steps (b :: t)

/-- A visitor that only ever grows the visited set. -/
def VisitMono
    (visit : String → List String → List String →
      Option (Bool × List String)) : Prop :=
  ∀ d v rs b v', visit d v rs = some (b, v') → v ⊆ v'

/-- The full specification of a depth-first visit: under the search
invariants, it grows the visited set, marks its node visited, reports `true`
only in the presence of a real dependency cycle, and restores the invariants
when it reports `false`. -/
def GoodVisit (steps : List Step)
    (visit : String → List String → List String →
      Option (Bool × List String)) : Prop :=
  ∀ u v rs b v', rs ⊆ v → BlacksClosed steps v rs → NoBlackCycle steps v rs →
    StackChain steps (u :: rs) → u ∉ v → visit u v rs = some (b, v') →
    v ⊆ v' ∧ u ∈ v' ∧ (b = true → Cyclic steps) ∧
      (b = false → BlacksClosed steps v' rs ∧ NoBlackCycle steps v' rs)

/-- The number of ids the search has not visited yet (its termination
measure). -/
def unvisited_count (steps : List Step) (v : List String) : Nat :=
  ((all_ids steps).dedup.filter (fun x => x ∉ v)).length

/-- A two-step plan whose dependencies form a cycle. -/
def plan_cyclic : ExecutionPlan :=
  { id := "pc", task_description := "t",
    steps :=
      [{ id := "x", description := "dx", tool := "shell",
         dependencies := ["y"] },
       { id := "y", description := "dy", tool := "shell",
         dependencies := ["x"] }] }

/-- An acyclic two-step plan over registered tools with in-plan
dependencies. -/
def plan_ok : ExecutionPlan :=
  { id := "po", task_description := "t",
    steps :=
      [{ id := "s1", description := "d1", tool := "shell" },
       { id := "s2", description := "d2", tool := "shell",
         dependencies := ["s1"] }] }

/-! ### Step execution -/

/-- One tool invocation's outcome, as seen through
`ToolRegistry.execute_tool`: either a result value (possibly Python `None`)
with its measured time, or a raised error message with the elapsed time. -/
inductive ToolOutcome where
  | ok (result : Option String) (time : ℚ)
  | err (message : String) (time : ℚ)
deriving DecidableEq

/-- The tool environment: the outcome of running a given step's tool at a
given (0-based) attempt number. -/
def ToolOracle : Type :=
  String → Nat → ToolOutcome

/-- The reasoning provider behind `generate_alternative_approach`: revised
parameters for a failing step, or `none` when it fails to produce any. -/
def AltOracle : Type :=
  Step → Option (List (String × String))

/-- Embeds `_check_dependencies`: every dependency id appears among the
completed steps. -/
def check_dependencies (s : Step) (completed : List Step) : Bool :=
  s.dependencies.all (fun dep => dep ∈ completed.map (fun c => c.id))

/-- How many times a step id has already been executed, read off the
invocation log. -/
def attempt_of (log : List String) (id : String) : Nat :=
  (log.filter (fun x => x == id)).length

/-- Embeds `execute_step`: mark running, invoke the tool; on success mark
success and record result and time; on a raised error mark failed and record
the message and time. Also returns the extended invocation log. -/
def execute_step (oracle : ToolOracle) (log : List String) (s : Step) :
    Bool × Step × List String :=
  let s1 := { s with status := StepStatus.running }
  match oracle s1.id (attempt_of log s1.id) with
  | .ok res t =>
      let s2 : Step :=
        { s1 with
          status := .success
          result := res
          execution_time := t }
      (true, s2, log ++ [s1.id])
  | .err msg t =>
      let s2 : Step :=
        { s1 with
          status := .failed
          error := some msg
          execution_time := t }
      (false, s2, log ++ [s1.id])

/-- Embeds `retry_step` with `alternative_approach=True` (as invoked by
`execute_plan`): refuse when the retry budget is exhausted, otherwise bump
the counter, possibly install alternative parameters, and re-execute. -/
def retry_step (oracle : ToolOracle) (alt : AltOracle) (log : List String)
    (s : Step) : Bool × Step × List String :=
  if s.max_retries ≤ s.retry_count then (false, s, log)
  else
    let s1 : Step :=
      { s with
        retry_count := s.retry_count + 1
        status := StepStatus.retrying }
    let s2 :=
      match alt s1 with
      | some ps => { s1 with parameters := ps }
      | none => s1
    execute_step oracle log s2

/-- The first element of maximal priority (Python's stable
`sort(key=priority.value, reverse=True)` followed by taking element 0). -/
def pick_best : Step → List Step → Step
  | best, [] => best
  | best, s :: rest =>
    pick_best (if best.priority.val < s.priority.val then s else best) rest

/-- Python's `list.remove`: drop the first element equal to `x`. -/
def remove_first (x : Step) : List Step → List Step
  | [] => []
  | y :: ys => if y = x then ys else y :: remove_first x ys

/-- Embeds `_sort_steps_by_priority_and_dependencies`: repeatedly pick, among
the steps whose dependencies are already scheduled (or, if there are none,
the first remaining step), the first one of maximal priority. The fuel is
the number of steps, which suffices because each round removes exactly one
step. -/
def sort_steps_aux : Nat → List Step → List String → List Step
  | 0, _, _ => []
  | fuel + 1, remaining, sorted_ids =>
    match remaining with
    | [] => []
    | r :: rs =>
      let ready := (r :: rs).filter
        (fun s => s.dependencies.all (fun dep => dep ∈ sorted_ids))
      match ready with
      | [] =>
        r :: sort_steps_aux fuel (remove_first r (r :: rs))
          (sorted_ids ++ [r.id])
      | c :: cs =>
        let chosen := pick_best c cs
        chosen :: sort_steps_aux fuel (remove_first chosen (r :: rs))
          (sorted_ids ++ [chosen.id])

/-- Embeds `_sort_steps_by_priority_and_dependencies`. -/
def sort_steps (steps : List Step) : List Step :=
  sort_steps_aux steps.length steps []

/-- The in-flight state of `execute_plan`: the completed and failed step
lists, the final snapshot of every processed step in processing order, and
the tool-invocation log. -/
structure SchedulerRun where
  completed : List Step
  failed : List Step
  finals : List Step
  log : List String
deriving DecidableEq

/-- `max_execution_time` of the agent (seconds). -/
def max_execution_time : ℚ := 300

/-- Embeds the main loop of `execute_plan` over the sorted steps. A step
whose dependencies are not all completed is marked skipped and the loop
continues (Python's `continue` also skips the timeout check). Otherwise the
step is executed, retried once with an alternative approach on failure, and
recorded as completed or failed; then the cumulative wall clock (read
through the `elapsed` oracle) is checked against `max_execution_time`, and
on a timeout the remaining steps are left untouched. -/
def execute_plan_aux (oracle : ToolOracle) (alt : AltOracle)
    (elapsed : Nat → ℚ) :
    List Step → SchedulerRun → Nat → SchedulerRun
  | [], st, _ => st
  | s :: rest, st, k =>
    if check_dependencies s st.completed = false then
      execute_plan_aux oracle alt elapsed rest
        { st with finals := st.finals ++ [{ s with status := .skipped }] } k
    else
      let r1 := execute_step oracle st.log s
      if r1.1 then
        let st1 : SchedulerRun :=
          { completed := st.completed ++ [r1.2.1], failed := st.failed,
            finals := st.finals ++ [r1.2.1], log := r1.2.2 }
        if max_execution_time < elapsed k then
          { st1 with finals := st1.finals ++ rest }
        else execute_plan_aux oracle alt elapsed rest st1 (k + 1)
      else
        let r2 := retry_step oracle alt r1.2.2 r1.2.1
        let st1 : SchedulerRun :=
          if r2.1 then
            { completed := st.completed ++ [r2.2.1], failed := st.failed,
              finals := st.finals ++ [r2.2.1], log := r2.2.2 }
          else
            { completed := st.completed, failed := st.failed ++ [r2.2.1],
              finals := st.finals ++ [r2.2.1], log := r2.2.2 }
        if max_execution_time < elapsed k then
          { st1 with finals := st1.finals ++ rest }
        else execute_plan_aux oracle alt elapsed rest st1 (k + 1)

/-- Embeds `_combine_results`: the ordered records (id, description, result,
execution time) of the completed steps whose result is not `None`. -/
def combine_results (steps : List Step) :
    List (String × String × Option String × ℚ) :=
  (steps.filter (fun s => s.result.isSome)).map
    (fun s => (s.id, s.description, s.result, s.execution_time))

/-- Python string interpolation of an optional string. -/
def option_str : Option String → String
  | none => "None"
  | some s => s

/-- Embeds `_generate_error_summary`: "Шаг <id>: <error>" entries joined
with "; ", empty for no failures. -/
def generate_error_summary (failed : List Step) : String :=
  if failed.isEmpty then ""
  else
    String.intercalate "; "
      (failed.map (fun s => "Шаг " ++ s.id ++ ": " ++ option_str s.error))

/-- Embeds the `performance_metrics` dictionary of `ExecutionResult`. -/
structure PerformanceMetrics where
  total_steps : Nat
  completed_count : Nat
  failed_count : Nat
  success_rate : ℚ
  average_step_time : ℚ
deriving DecidableEq

/-- Embeds the `ExecutionResult` dataclass. -/
structure ExecutionResult where
  plan_id : String
  success : Bool
  completed_steps : List Step
  failed_steps : List Step
  total_time : ℚ
  final_result : List (String × String × Option String × ℚ)
  error_summary : String
  performance_metrics : PerformanceMetrics
deriving DecidableEq

/-- Embeds `execute_plan`: sort, run the loop, and synthesise the result.
Also returns the final snapshots of the processed steps and the invocation
log (the observable trace of tool executions). -/
def execute_plan (oracle : ToolOracle) (alt : AltOracle) (elapsed : Nat → ℚ)
    (plan : ExecutionPlan) : ExecutionResult × List Step × List String :=
  let sorted := sort_steps plan.steps
  let st := execute_plan_aux oracle alt elapsed sorted ⟨[], [], [], []⟩ 0
  let n := plan.steps.length
  let total_time := elapsed sorted.length
  (⟨plan.id, st.failed.isEmpty, st.completed, st.failed, total_time,
    combine_results st.completed, generate_error_summary st.failed,
    ⟨n, st.completed.length, st.failed.length,
     if n = 0 then 0 else (st.completed.length : ℚ) / (n : ℚ),
     if n = 0 then 0 else total_time / (n : ℚ)⟩⟩,
   st.finals, st.log)

/-! ### The planning phase of plan_and_execute -/

/-- The agent's `max_planning_attempts` setting (assigned 3, never read). -/
def max_planning_attempts : Nat := 3

/-- Embeds the validate/improve part of `plan_and_execute`: validate; if
invalid, improve once (the external improver stands for `improve_plan`,
which returns the original plan when the provider fails) and re-validate; if
still invalid, raise `ValueError`. -/
def plan_phase (registry : List String)
    (improve : ExecutionPlan → List String → ExecutionPlan)
    (plan : ExecutionPlan) : Except String ExecutionPlan :=
  let v := validate_plan registry plan
  if v.1 then Except.ok plan
  else
    let plan2 := improve plan v.2
    let v2 := validate_plan registry plan2
    if v2.1 then Except.ok plan2
    else Except.error "Не удалось создать валидный план"

/-- Modelled from the spec: the claimed planning loop, "improve_plan … asks
for a corrected plan and re-validates; bounded by max_planning_attempts
(default 3); exhausting attempts raises PlanValidationError". Runs up to
`attempts` improve-and-revalidate rounds and raises only after all of them
leave the plan invalid. -/
def plan_phase_spec (attempts : Nat) (registry : List String)
    (improve : ExecutionPlan → List String → ExecutionPlan)
    (plan : ExecutionPlan) : Except String ExecutionPlan :=
  match attempts with
  | 0 =>
    if (validate_plan registry plan).1 then Except.ok plan
    else Except.error "PlanValidationError"
  | n + 1 =>
    if (validate_plan registry plan).1 then Except.ok plan
    else
      plan_phase_spec n registry improve
        (improve plan (validate_plan registry plan).2)

/-- The success part of a planning outcome. -/
def except_ok : Except String ExecutionPlan → Option ExecutionPlan
  | .ok p => some p
  | .error _ => none

/-- A one-tool registry for the concrete planning scenarios. -/
def demo_registry : List String := ["shell"]

/-- A plan whose single step names an unregistered tool. -/
def plan_bad : ExecutionPlan :=
  { id := "p1", task_description := "demo",
    steps := [{ id := "step_1", description := "run", tool := "missing_a" }] }

/-- An improver that needs two rounds: the first correction still names an
unregistered tool, the second one fixes the plan. -/
def improve_twice : ExecutionPlan → List String → ExecutionPlan :=
  fun p _ =>
    if p.steps.any (fun s => s.tool == "missing_a") then
      { p with steps :=
          [{ id := "step_1", description := "run", tool := "missing_b" }] }
    else
      { p with steps :=
          [{ id := "step_1", description := "run", tool := "shell" }] }

/-! ### Concrete scenarios -/

/-- Whether a tool outcome is a raised error. -/
def ToolOutcome.isErr : ToolOutcome → Bool
  | .ok _ _ => false
  | .err _ _ => true

/-- A two-step plan: the first step's tool succeeds but returns Python
`None`, the second step's tool always raises. -/
def plan_two : ExecutionPlan :=
  { id := "p7", task_description := "t",
    steps :=
      [{ id := "s1", description := "first", tool := "shell" },
       { id := "s2", description := "second", tool := "shell" }] }

/-- The tool environment for `plan_two`. -/
def oracle_two : ToolOracle := fun id _ =>
  if id == "s1" then .ok none 1 else .err "boom" 1

/-- A reasoning provider that never proposes alternative parameters. -/
def alt_none : AltOracle := fun _ => none

/-- A wall clock that never advances (no timeout fires). -/
def clock_zero : Nat → ℚ := fun _ => 0

/-- A step whose retry budget is already used up. -/
def step_maxed : Step :=
  { id := "m", description := "d", tool := "shell", retry_count := 3 }

/-- The snapshot `execute_step` leaves behind on a raised error. -/
def step_failed (s : Step) (msg : String) (t : ℚ) : Step :=
  { s with
    status := .failed
    error := some msg
    execution_time := t }

/-- The snapshot `execute_step` leaves behind on success. -/
def step_success (s : Step) (res : Option String) (t : ℚ) : Step :=
  { s with
    status := .success
    result := res
    execution_time := t }

/-- The snapshot `execute_plan` leaves behind on a dependency-skip. -/
def step_skipped (s : Step) : Step :=
  { s with status := .skipped }

/-- Scenario E: step a, independent. -/
def step_a : Step :=
  { id := "a", description := "first branch", tool := "shell" }

/-- Scenario E: step b, independent of a. -/
def step_b : Step :=
  { id := "b", description := "second branch", tool := "shell" }

/-- Scenario E: step c depends on both a and b. -/
def step_c : Step :=
  { id := "c", description := "join", tool := "shell",
    dependencies := ["a", "b"] }

/-- Scenario E plan. -/
def plan_abc : ExecutionPlan :=
  { id := "p4", task_description := "t", steps := [step_a, step_b, step_c] }

/-- Scenario E tools: step a's tool always raises, step b's succeeds. -/
def oracle_abc : ToolOracle := fun id _ =>
  if id == "b" then .ok (some "ok") 1 else .err "fail" 1

/-- The retry invariant on a step: its counter is within its budget. -/
def StepRetryOK (s : Step) : Prop :=
  s.retry_count ≤ s.max_retries

/-- The retry invariant on all step records a scheduler run has produced. -/
def RunRetryOK (st : SchedulerRun) : Prop :=
  (∀ s ∈ st.completed, StepRetryOK s) ∧ (∀ s ∈ st.failed, StepRetryOK s) ∧
    (∀ s ∈ st.finals, StepRetryOK s)

end Jarilo

/-! ## Theorems -/

namespace Jarilo

/-- C8 counterexample: combining two `ToolResult`s whose `output` fields hold
the conflicting non-empty values "a" and "b" does not fail; the fields are
silently concatenated to "ab". -/
theorem toolresult_add_conflict_not_error :
    ToolResult.add { output := some "a" } { output := some "b" } =
      Except.ok { output := some "ab" } ∧
    (some "a" : Option String) ≠ some "b" := by
  constructor
  · rfl
  · decide

/-- C8 amended: combining two `ToolResult`s never raises; each field is the
concatenation of the two sides when both are truthy (even when the values
conflict) and the single truthy side otherwise. -/
theorem toolresult_add_never_fails (a b : ToolResult) :
    ToolResult.add a b =
      Except.ok
        { output := mergeFieldSpec a.output b.output,
          error := mergeFieldSpec a.error b.error,
          system := mergeFieldSpec a.system b.system } := by
  unfold ToolResult.add combine_fields mergeFieldSpec
  rcases a with ⟨ao, ae, as⟩
  rcases b with ⟨bo, be, bs⟩
  simp only []
  by_cases ho : (truthy ao && truthy bo) = true <;>
    by_cases he : (truthy ae && truthy be) = true <;>
      by_cases hs : (truthy as && truthy bs) = true <;>
        simp [ho, he, hs, Bind.bind, Except.bind]

/-- C9: the strategy selector agrees with the spec's ordered rule everywhere,
and the confidence estimate never exceeds 0.95. -/
theorem strategy_selection_and_confidence :
    (∀ (complexity : Int) (required_plugins : List String),
      select_strategy complexity required_plugins =
        select_strategy_spec complexity required_plugins) ∧
    (∀ (st : Strategy) (tool_count : Nat)
      (required_plugins available_plugins : List String),
      estimate_confidence st tool_count required_plugins available_plugins
        ≤ 0.95) := by
  constructor
  · intro complexity required_plugins
    unfold select_strategy select_strategy_spec
    by_cases hp : required_plugins = [] <;> by_cases hc : (8 : Int) ≤ complexity <;>
      simp [hp, hc]
  · intro st tool_count required_plugins available_plugins
    unfold estimate_confidence
    exact min_le_right _ _

/-- C1: on every orchestration state, the router `should_continue` returns
exactly the successor prescribed by the spec's ordered decision list. -/
theorem should_continue_matches_spec (s : GraphState) :
    should_continue s = route_spec s := by
  unfold should_continue route_spec
  by_cases h1 : 3 ≤ s.replan_attempts
  · simp [h1]
  · have h1' : s.replan_attempts < 3 := Nat.lt_of_not_le h1
    by_cases h2 : s.error ≠ "" <;>
      by_cases h3 : s.plan.isEmpty <;>
        by_cases h4 : s.critique = "" <;>
          by_cases h5 : strIn "good" s.critique = true <;>
            simp_all [List.isEmpty_iff, show strIn "good" "" = false from rfl]

/-- C10: every return path of `planner_node` emits empty `tool_calls`, empty
`tool_results` and an empty error string, so tool results accumulated before
a replan are discarded by the next planner pass. -/
theorem planner_node_clears_tool_state (s : GraphState) (inp : ProviderInput) :
    (planner_node s inp).tool_calls = [] ∧
    (planner_node s inp).tool_results = [] ∧
    (planner_node s inp).error = "" := by
  refine ⟨?_, ?_, ?_⟩ <;> (unfold planner_node; split <;> rfl)

/-- C2 counterexample: under a provider whose critiques never contain "good"
(a reachable critique-node outcome), the run has not reached END after
cap + 2 = 5 transitions — and it is periodic (the configuration after 4
steps equals the one after 2), so it never reaches END at all: the
critique-driven replan path does not increment `replan_attempts`. -/
theorem graph_run_exceeds_claimed_bound :
    (graph_run "t" stubborn_provider 0).1 ≠ .finished ∧
    (graph_run "t" stubborn_provider 1).1 ≠ .finished ∧
    (graph_run "t" stubborn_provider 2).1 ≠ .finished ∧
    (graph_run "t" stubborn_provider 3).1 ≠ .finished ∧
    (graph_run "t" stubborn_provider 4).1 ≠ .finished ∧
    (graph_run "t" stubborn_provider 5).1 ≠ .finished ∧
    graph_run "t" stubborn_provider 4 = graph_run "t" stubborn_provider 2 := by
  refine ⟨?_, ?_, ?_, ?_, ?_, ?_, ?_⟩ <;> decide

/-- Helper: `planner_node` never changes the replan counter. -/
theorem planner_node_attempts (s : GraphState) (inp : ProviderInput) :
    (planner_node s inp).replan_attempts = s.replan_attempts := by
  unfold planner_node
  split <;> rfl

/-- Helper: the router only selects the reflection node below the cap. -/
theorem should_continue_reflection_lt (s : GraphState)
    (h : should_continue s = .reflection_node) : s.replan_attempts < 3 := by
  by_cases hge : 3 ≤ s.replan_attempts
  · unfold should_continue at h
    rw [if_pos hge] at h
    exact absurd h (by simp)
  · exact Nat.lt_of_not_le hge

/-- Helper: unfolding one transition of the compiled graph at the critique
node. -/
theorem graph_step_critique (s : GraphState) (inp : ProviderInput) :
    graph_step (.critique, s) inp =
      (match should_continue (critique_node s inp) with
       | .reflection_node => GraphNode.reflection
       | .planner_node => .planner
       | .executor_node => .executor
       | .finish => .finished, critique_node s inp) := rfl

/-- Helper invariant for the replan counter: it never exceeds 3, and the
reflection node is only ever entered with the counter at most 2. -/
theorem graph_run_replan_invariant (task : String)
    (provider : Nat → ProviderInput) (n : Nat) :
    (graph_run task provider n).2.replan_attempts ≤ 3 ∧
      ((graph_run task provider n).1 = .reflection →
        (graph_run task provider n).2.replan_attempts ≤ 2) := by
  induction n with
  | zero =>
    refine ⟨Nat.zero_le 3, fun h => ?_⟩
    have hpl : GraphNode.planner = GraphNode.reflection := h
    exact absurd hpl (by simp)
  | succ n ih =>
    obtain ⟨hb, hr⟩ := ih
    rcases hc : graph_run task provider n with ⟨nd, s⟩
    rw [hc] at hb hr
    have hstep : graph_run task provider (n + 1) = graph_step (nd, s) (provider n) := by
      show graph_step (graph_run task provider n) (provider n) = _
      rw [hc]
    rw [hstep]
    cases nd with
    | planner =>
      refine ⟨?_, fun h => ?_⟩
      · show (planner_node s (provider n)).replan_attempts ≤ 3
        rw [planner_node_attempts]
        exact hb
      · exact absurd (show GraphNode.critique = GraphNode.reflection from h) (by simp)
    | critique =>
      refine ⟨?_, fun h => ?_⟩
      · exact hb
      · have h' : (match should_continue (critique_node s (provider n)) with
            | RouteTarget.reflection_node => GraphNode.reflection
            | RouteTarget.planner_node => GraphNode.planner
            | RouteTarget.executor_node => GraphNode.executor
            | RouteTarget.finish => GraphNode.finished) = GraphNode.reflection := h
        show (critique_node s (provider n)).replan_attempts ≤ 2
        rcases hsc : should_continue (critique_node s (provider n)) with _ | _ | _ | _ <;>
          rw [hsc] at h'
        · exact Nat.lt_succ_iff.mp (should_continue_reflection_lt _ hsc)
        · exact absurd h' (by simp)
        · exact absurd h' (by simp)
        · exact absurd h' (by simp)
    | executor =>
      refine ⟨hb, fun h => ?_⟩
      exact absurd (show GraphNode.finished = GraphNode.reflection from h) (by simp)
    | reflection =>
      have h2 : s.replan_attempts ≤ 2 := hr rfl
      refine ⟨?_, fun h => ?_⟩
      · show s.replan_attempts + 1 ≤ 3
        omega
      · exact absurd (show GraphNode.planner = GraphNode.reflection from h) (by simp)
    | finished => exact ⟨hb, hr⟩

/-- C2 amended: `replan_attempts` stays bounded by the cap of 3 on every run
under every provider; but END within cap + 2 transitions only holds for runs
whose critiques all contain "good" (such runs finish within 3 transitions) —
a run whose critiques never contain "good" alternates planner/critique
forever, because critique-driven replans do not touch `replan_attempts`. -/
theorem graph_replan_bounded_and_approved_runs_finish :
    (∀ (task : String) (provider : Nat → ProviderInput) (n : Nat),
      (graph_run task provider n).2.replan_attempts ≤ 3) ∧
    (∀ (task : String) (provider : Nat → ProviderInput),
      (∀ n, strIn "good" (provider n).critique_text = true) →
      (graph_run task provider 2).1 = .finished ∨
        (graph_run task provider 3).1 = .finished) := by
  constructor
  · intro task provider n
    exact (graph_run_replan_invariant task provider n).1
  · intro task provider hgood
    have hne : (provider 1).critique_text ≠ "" := by
      intro h
      have hg := hgood 1
      rw [h] at hg
      exact absurd hg (by decide)
    have h2 : graph_run task provider 2 =
        graph_step (.critique, planner_node (init_state task) (provider 0))
          (provider 1) := rfl
    have hcrit : critique_node (planner_node (init_state task) (provider 0))
        (provider 1) =
        { task_description := task, plan := (provider 0).gen_plan,
          critique := (provider 1).critique_text, tool_calls := [],
          tool_results := [], replan_attempts := 0, error := "" } := rfl
    by_cases hempty : (provider 0).gen_plan = []
    · left
      have hsc : should_continue
          ({ task_description := task, plan := (provider 0).gen_plan,
             critique := (provider 1).critique_text, tool_calls := [],
             tool_results := [], replan_attempts := 0, error := "" } :
            GraphState) = .finish := by
        unfold should_continue
        simp [hempty, hne]
      rw [h2, graph_step_critique, hcrit, hsc]
    · right
      have hsc : should_continue
          ({ task_description := task, plan := (provider 0).gen_plan,
             critique := (provider 1).critique_text, tool_calls := [],
             tool_results := [], replan_attempts := 0, error := "" } :
            GraphState) = .executor_node := by
        unfold should_continue
        simp [hempty, hne, hgood 1, List.isEmpty_iff]
      have h2' : graph_run task provider 2 =
          (.executor,
            { task_description := task, plan := (provider 0).gen_plan,
              critique := (provider 1).critique_text, tool_calls := [],
              tool_results := [], replan_attempts := 0, error := "" }) := by
        rw [h2, graph_step_critique, hcrit, hsc]
      show (graph_step (graph_run task provider 2) (provider 2)).1 = .finished
      rw [h2']
      rfl

/-- Witness for the amended C2 theorem at a concrete approving provider. -/
theorem graph_approved_run_finishes_witness :
    strIn "good" (agreeable_provider 0).critique_text = true ∧
      ((graph_run "t" agreeable_provider 2).1 = .finished ∨
        (graph_run "t" agreeable_provider 3).1 = .finished) :=
  ⟨by decide,
    graph_replan_bounded_and_approved_runs_finish.2 "t" agreeable_provider
      (fun _ => (by decide : strIn "good" "good" = true))⟩

/-- C6 counterexample: with an improver whose second correction round would
produce a valid plan — well within the claimed budget of
`max_planning_attempts = 3` rounds — the code still raises (`ValueError`,
not `PlanValidationError`) after its single improve-and-revalidate round,
while the spec's loop succeeds. -/
theorem plan_phase_single_round_counterexample :
    plan_phase demo_registry improve_twice plan_bad =
      Except.error "Не удалось создать валидный план" ∧
    plan_phase_spec max_planning_attempts demo_registry improve_twice
        plan_bad =
      Except.ok
        { id := "p1", task_description := "demo",
          steps :=
            [{ id := "step_1", description := "run", tool := "shell" }] } := by
  constructor
  · rfl
  · rfl

/-- C6 amended: the planning phase of `plan_and_execute` performs exactly one
improve-and-revalidate round — it coincides with the spec's bounded loop
instantiated with a budget of one attempt, not with the configured
`max_planning_attempts` — and its failure is a `ValueError`. -/
theorem plan_phase_is_single_round (registry : List String)
    (improve : ExecutionPlan → List String → ExecutionPlan)
    (plan : ExecutionPlan) :
    except_ok (plan_phase registry improve plan) =
      except_ok (plan_phase_spec 1 registry improve plan) := by
  unfold plan_phase plan_phase_spec plan_phase_spec
  by_cases h1 : (validate_plan registry plan).1 <;>
    by_cases h2 : (validate_plan registry
        (improve plan (validate_plan registry plan).2)).1 <;>
      simp [h1, h2, except_ok]

/-- C7 counterexample: in a run where step s1 completes with a `None` result
and step s2 fails, the completed step's record is missing from
`final_result` (the code filters out `None` results), and `error_summary`
carries a "Шаг " prefix before the step id, so it is not the concatenation
of "s2: boom" entries. -/
theorem execute_plan_synthesis_counterexample :
    ((execute_plan oracle_two alt_none clock_zero plan_two).1.completed_steps.map
        (fun s => (s.id, s.description, s.result, s.execution_time)) =
      [("s1", "first", (none : Option String), (1 : ℚ))]) ∧
    (execute_plan oracle_two alt_none clock_zero plan_two).1.final_result
      = [] ∧
    (execute_plan oracle_two alt_none clock_zero plan_two).1.error_summary
      = "Шаг s2: boom" ∧
    (execute_plan oracle_two alt_none clock_zero plan_two).1.error_summary
      ≠ "s2: boom" := by
  refine ⟨?_, ?_, ?_, ?_⟩ <;> decide

/-- C7 amended: for every executed plan, `success` is true iff
`failed_steps` is empty; `final_result` is the ordered record list of the
completed steps whose result is not `None` (in completion order); and
`error_summary` joins "Шаг <id>: <error>" entries for the failed steps with
"; ". -/
theorem execute_plan_result_synthesis (oracle : ToolOracle) (alt : AltOracle)
    (elapsed : Nat → ℚ) (plan : ExecutionPlan) :
    ((execute_plan oracle alt elapsed plan).1.success = true ↔
      (execute_plan oracle alt elapsed plan).1.failed_steps = []) ∧
    (execute_plan oracle alt elapsed plan).1.final_result =
      (((execute_plan oracle alt elapsed plan).1.completed_steps.filter
          (fun s => s.result.isSome)).map
        (fun s => (s.id, s.description, s.result, s.execution_time))) ∧
    (execute_plan oracle alt elapsed plan).1.error_summary =
      (if (execute_plan oracle alt elapsed plan).1.failed_steps.isEmpty
       then ""
       else String.intercalate "; "
        ((execute_plan oracle alt elapsed plan).1.failed_steps.map
          (fun s => "Шаг " ++ s.id ++ ": " ++ option_str s.error))) := by
  refine ⟨?_, rfl, rfl⟩
  show ((execute_plan_aux oracle alt elapsed (sort_steps plan.steps)
      ⟨[], [], [], []⟩ 0).failed.isEmpty = true ↔ _)
  exact List.isEmpty_iff

/-- Helper: `execute_step` never touches the retry counter or the budget. -/
theorem execute_step_retry_fields (oracle : ToolOracle) (log : List String)
    (s : Step) :
    (execute_step oracle log s).2.1.retry_count = s.retry_count ∧
    (execute_step oracle log s).2.1.max_retries = s.max_retries := by
  cases h : oracle s.id (attempt_of log s.id) <;> simp [execute_step, h]

/-- Helper: `retry_step` preserves the retry invariant on its step. -/
theorem retry_step_keeps_invariant (oracle : ToolOracle) (alt : AltOracle)
    (log : List String) (s : Step) (h : StepRetryOK s) :
    StepRetryOK (retry_step oracle alt log s).2.1 := by
  unfold retry_step
  by_cases hb : s.max_retries ≤ s.retry_count
  · simpa [hb, StepRetryOK] using h
  · have hlt : s.retry_count < s.max_retries := Nat.lt_of_not_le hb
    simp only [hb, if_false]
    have key : ∀ s2 : Step, s2.retry_count = s.retry_count + 1 →
        s2.max_retries = s.max_retries →
        StepRetryOK (execute_step oracle log s2).2.1 := by
      intro s2 h1 h2
      unfold StepRetryOK
      rw [(execute_step_retry_fields _ _ _).1,
        (execute_step_retry_fields _ _ _).2, h1, h2]
      omega
    cases halt : alt { s with retry_count := s.retry_count + 1, status := StepStatus.retrying } with
    | none => exact key _ rfl rfl
    | some ps => exact key _ rfl rfl

/-- Helper: elements produced by `pick_best` come from its inputs. -/
theorem pick_best_mem (b : Step) (l : List Step) :
    pick_best b l = b ∨ pick_best b l ∈ l := by
  induction l generalizing b with
  | nil => exact Or.inl rfl
  | cons s rest ih =>
    rcases ih (if b.priority.val < s.priority.val then s else b) with h | h
    · rw [pick_best, h]
      by_cases hp : b.priority.val < s.priority.val
      · exact Or.inr (by simp [hp])
      · exact Or.inl (by simp [hp])
    · exact Or.inr (List.mem_cons_of_mem _ h)

/-- Helper: removing an element keeps us inside the original list. -/
theorem remove_first_subset (x : Step) (l : List Step) :
    remove_first x l ⊆ l := by
  induction l with
  | nil => simp [remove_first]
  | cons y ys ih =>
    unfold remove_first
    by_cases h : y = x
    · simp [h]
    · simp only [h, if_false]
      exact List.cons_subset_cons y ih

/-- Helper: the sorted schedule is made of steps of the plan. -/
theorem sort_steps_aux_subset (fuel : Nat) :
    ∀ (remaining : List Step) (ids : List String),
      sort_steps_aux fuel remaining ids ⊆ remaining := by
  induction fuel with
  | zero => intro remaining ids; simp [sort_steps_aux]
  | succ fuel ih =>
    intro remaining ids
    unfold sort_steps_aux
    rcases remaining with _ | ⟨r, rs⟩
    · simp
    · dsimp only
      generalize hready : (r :: rs).filter
          (fun s => s.dependencies.all (fun dep => dep ∈ ids)) = ready
      rcases ready with _ | ⟨c, cs⟩
      · intro x hx
        rcases List.mem_cons.mp hx with h | h
        · exact h ▸ List.mem_cons_self r rs
        · exact remove_first_subset r (r :: rs) (ih _ _ h)
      · intro x hx
        rcases List.mem_cons.mp hx with h | h
        · subst h
          rcases pick_best_mem c cs with h' | h'
          · rw [h']
            have hcmem : c ∈ (r :: rs).filter
                (fun s => s.dependencies.all (fun dep => dep ∈ ids)) := by
              rw [hready]; exact List.mem_cons_self _ _
            exact List.mem_of_mem_filter hcmem
          · have hcmem : pick_best c cs ∈ (r :: rs).filter
                (fun s => s.dependencies.all (fun dep => dep ∈ ids)) := by
              rw [hready]; exact List.mem_cons_of_mem _ h'
            exact List.mem_of_mem_filter hcmem
        · exact remove_first_subset _ (r :: rs) (ih _ _ h)

/-- Helper: the execution loop preserves the retry invariant on everything it
records. -/
theorem execute_plan_aux_retry_inv (oracle : ToolOracle) (alt : AltOracle)
    (elapsed : Nat → ℚ) :
    ∀ (steps : List Step) (st : SchedulerRun) (k : Nat),
      (∀ s ∈ steps, StepRetryOK s) → RunRetryOK st →
      RunRetryOK (execute_plan_aux oracle alt elapsed steps st k) := by
  intro steps
  induction steps with
  | nil => intro st k _ hst; simpa [execute_plan_aux] using hst
  | cons s rest ih =>
    intro st k hsteps hst
    obtain ⟨hC, hF, hN⟩ := hst
    have hs : StepRetryOK s := hsteps s (List.mem_cons_self _ _)
    have hrest : ∀ x ∈ rest, StepRetryOK x :=
      fun x hx => hsteps x (List.mem_cons_of_mem _ hx)
    have happend : ∀ (l : List Step) (z : Step), (∀ x ∈ l, StepRetryOK x) →
        StepRetryOK z → ∀ x ∈ l ++ [z], StepRetryOK x := by
      intro l z hl hz x hx
      rcases List.mem_append.mp hx with h | h
      · exact hl x h
      · have hxz : x = z := by simpa using h
        exact hxz ▸ hz
    have happ2 : ∀ (l r : List Step), (∀ x ∈ l, StepRetryOK x) →
        (∀ x ∈ r, StepRetryOK x) → ∀ x ∈ l ++ r, StepRetryOK x := by
      intro l r hl hr x hx
      rcases List.mem_append.mp hx with h | h
      · exact hl x h
      · exact hr x h
    unfold execute_plan_aux
    by_cases hdep : check_dependencies s st.completed = false
    · rw [if_pos hdep]
      exact ih _ _ hrest ⟨hC, hF, happend _ _ hN hs⟩
    · rw [if_neg hdep]
      generalize hr1 : execute_step oracle st.log s = r1
      have hs1 : StepRetryOK r1.2.1 := by
        unfold StepRetryOK
        rw [(hr1 ▸ (execute_step_retry_fields oracle st.log s).1 :
              r1.2.1.retry_count = s.retry_count),
          (hr1 ▸ (execute_step_retry_fields oracle st.log s).2 :
              r1.2.1.max_retries = s.max_retries)]
        exact hs
      obtain ⟨ok1, s1, log1⟩ := r1
      rcases ok1 with _ | _
      · -- initial execution failed: retry once
        rw [if_neg Bool.false_ne_true]
        generalize hr2 : retry_step oracle alt log1 s1 = r2
        have hs2 : StepRetryOK r2.2.1 := by
          have hkeep := retry_step_keeps_invariant oracle alt log1 s1 hs1
          rw [hr2] at hkeep
          exact hkeep
        obtain ⟨ok2, s2, log2⟩ := r2
        rcases ok2 with _ | _
        · -- retry failed as well
          split
          · exact ⟨hC, happend _ _ hF hs2, happ2 _ _ (happend _ _ hN hs2) hrest⟩
          · exact ih _ _ hrest ⟨hC, happend _ _ hF hs2, happend _ _ hN hs2⟩
        · -- retry succeeded
          split
          · exact ⟨happend _ _ hC hs2, hF, happ2 _ _ (happend _ _ hN hs2) hrest⟩
          · exact ih _ _ hrest ⟨happend _ _ hC hs2, hF, happend _ _ hN hs2⟩
      · -- initial execution succeeded
        rw [if_pos rfl]
        split
        · exact ⟨happend _ _ hC hs1, hF, happ2 _ _ (happend _ _ hN hs1) hrest⟩
        · exact ih _ _ hrest ⟨happend _ _ hC hs1, hF, happend _ _ hN hs1⟩

/-- C5: `retry_step` refuses to re-run a step whose budget is used up
(returning failure without touching the step), it preserves the invariant
`retry_count ≤ max_retries`, and after any `execute_plan` run every recorded
step — completed, failed, or in the processed snapshots — still satisfies
the invariant, provided the plan's steps started within budget. -/
theorem retry_count_never_exceeds_max :
    (∀ (oracle : ToolOracle) (alt : AltOracle) (log : List String) (s : Step),
      s.max_retries ≤ s.retry_count →
      retry_step oracle alt log s = (false, s, log)) ∧
    (∀ (oracle : ToolOracle) (alt : AltOracle) (log : List String) (s : Step),
      StepRetryOK s → StepRetryOK (retry_step oracle alt log s).2.1) ∧
    (∀ (oracle : ToolOracle) (alt : AltOracle) (elapsed : Nat → ℚ)
      (plan : ExecutionPlan),
      (∀ s ∈ plan.steps, StepRetryOK s) →
      (∀ s ∈ (execute_plan oracle alt elapsed plan).1.completed_steps,
        StepRetryOK s) ∧
      (∀ s ∈ (execute_plan oracle alt elapsed plan).1.failed_steps,
        StepRetryOK s) ∧
      (∀ s ∈ (execute_plan oracle alt elapsed plan).2.1, StepRetryOK s)) := by
  refine ⟨?_, retry_step_keeps_invariant, ?_⟩
  · intro oracle alt log s h
    unfold retry_step
    rw [if_pos h]
  · intro oracle alt elapsed plan h
    have hsorted : ∀ s ∈ sort_steps plan.steps, StepRetryOK s := by
      intro s hsmem
      exact h s (sort_steps_aux_subset plan.steps.length plan.steps [] hsmem)
    have := execute_plan_aux_retry_inv oracle alt elapsed
      (sort_steps plan.steps) ⟨[], [], [], []⟩ 0 hsorted
      ⟨by simp, by simp, by simp⟩
    exact this

/-- Witness for the C5 theorem: a concrete step at its retry cap is refused
without modification. -/
theorem retry_count_never_exceeds_max_witness :
    step_maxed.max_retries ≤ step_maxed.retry_count ∧
    retry_step oracle_two alt_none [] step_maxed = (false, step_maxed, []) :=
  ⟨by decide,
    retry_count_never_exceeds_max.1 oracle_two alt_none [] step_maxed
      (by decide)⟩

/-- Helper: the failure snapshot of `execute_step` when the tool raises. -/
theorem execute_step_fail_eq (oracle : ToolOracle) (log : List String)
    (s : Step) (h : (oracle s.id (attempt_of log s.id)).isErr = true) :
    ∃ msg t, execute_step oracle log s =
      (false, step_failed s msg t, log ++ [s.id]) := by
  cases ho : oracle s.id (attempt_of log s.id) with
  | ok res t =>
    rw [ho] at h
    exact absurd h (by simp [ToolOutcome.isErr])
  | err msg t => exact ⟨msg, t, by simp [execute_step, step_failed, ho]⟩

/-- Helper: the success snapshot of `execute_step`. -/
theorem execute_step_ok_eq (oracle : ToolOracle) (log : List String)
    (s : Step) (res : Option String) (t : ℚ)
    (h : oracle s.id (attempt_of log s.id) = .ok res t) :
    execute_step oracle log s =
      (true, step_success s res t, log ++ [s.id]) := by
  simp [execute_step, step_success, h]

/-- Helper: a retry against an always-raising tool fails and leaves a failed
snapshot with the same id. -/
theorem retry_step_fail_eq (oracle : ToolOracle) (alt : AltOracle)
    (log : List String) (s : Step) (hrc : s.retry_count < s.max_retries)
    (hfail : ∀ n, (oracle s.id n).isErr = true) :
    ∃ s' : Step, retry_step oracle alt log s = (false, s', log ++ [s.id]) ∧
      s'.id = s.id ∧ s'.status = .failed := by
  unfold retry_step
  rw [if_neg (Nat.not_le.mpr hrc)]
  dsimp only
  cases halt : alt { s with retry_count := s.retry_count + 1, status := StepStatus.retrying } with
  | none =>
    obtain ⟨msg, t, he⟩ := execute_step_fail_eq oracle log
      { s with retry_count := s.retry_count + 1, status := StepStatus.retrying }
      (hfail _)
    exact ⟨_, he, rfl, rfl⟩
  | some ps =>
    obtain ⟨msg, t, he⟩ := execute_step_fail_eq oracle log
      { s with parameters := ps, retry_count := s.retry_count + 1, status := StepStatus.retrying }
      (hfail _)
    exact ⟨_, he, rfl, rfl⟩

/-- Helper: sorting a plan of two independent steps followed by a join step
schedules the join last and the two roots first, in priority order. -/
theorem sort_steps_two_roots_then_join (A B C : Step)
    (hAB : A.id ≠ B.id)
    (hAdep : A.dependencies = []) (hBdep : B.dependencies = [])
    (hCdep : C.dependencies = [A.id, B.id]) :
    sort_steps [A, B, C] = [A, B, C] ∨ sort_steps [A, B, C] = [B, A, C] := by
  have hABne : A ≠ B := fun h => hAB (congrArg Step.id h)
  have hBAid : B.id ≠ A.id := fun h => hAB h.symm
  have h3 : sort_steps [A, B, C] = sort_steps_aux (2 + 1) [A, B, C] [] := rfl
  rw [h3]
  unfold sort_steps_aux
  simp only [List.filter, hAdep, hBdep, hCdep, List.all_nil, List.all_cons,
    List.mem_nil_iff, decide_False, Bool.false_and, List.mem_cons]
  by_cases hp : A.priority.val < B.priority.val
  · right
    simp only [pick_best, hp, if_true, remove_first, hABne, if_false,
      if_pos rfl, List.nil_append]
    rw [show (2 : Nat) = 1 + 1 from rfl]
    unfold sort_steps_aux
    simp only [List.filter, hAdep, hCdep, List.all_nil, List.all_cons,
      List.mem_singleton, hAB, decide_False, Bool.false_and, if_true,
      eq_self_iff_true, pick_best, remove_first, if_pos rfl]
    rw [show (1 : Nat) = 0 + 1 from rfl]
    unfold sort_steps_aux
    simp only [List.filter, hCdep, List.all_nil, List.all_cons, List.mem_cons,
      List.mem_singleton, List.singleton_append, hAB, hBAid, eq_self_iff_true,
      decide_True, or_true, true_or, or_false, false_or, Bool.true_and,
      Bool.and_true, decide_False, if_true, if_false, pick_best, remove_first,
      if_pos rfl, List.all_eq_true, sort_steps_aux]
  · left
    simp only [pick_best, hp, if_false, remove_first, if_pos rfl, if_true,
      eq_self_iff_true, List.nil_append]
    rw [show (2 : Nat) = 1 + 1 from rfl]
    unfold sort_steps_aux
    simp only [List.filter, hBdep, hCdep, List.all_nil, List.all_cons,
      List.mem_singleton, hBAid, decide_False, decide_True, Bool.false_and,
      Bool.true_and, Bool.and_true, if_true, eq_self_iff_true, pick_best,
      remove_first, if_pos rfl]
    rw [show (1 : Nat) = 0 + 1 from rfl]
    unfold sort_steps_aux
    simp only [List.filter, hCdep, List.all_nil, List.all_cons, List.mem_cons,
      List.mem_singleton, List.singleton_append, hAB, hBAid, eq_self_iff_true,
      decide_True, or_true, true_or, or_false, false_or, Bool.true_and,
      Bool.and_true, decide_False, if_true, if_false, pick_best, remove_first,
      if_pos rfl, List.all_eq_true, sort_steps_aux]

/-- Helper: running the loop on the schedule [A, B, C] when A's tool always
raises, B's succeeds, and C depends on both. -/
theorem scenario_fold_ABC (oracle : ToolOracle) (alt : AltOracle)
    (elapsed : Nat → ℚ) (A B C : Step) (rB : Option String) (tB : ℚ)
    (hAfail : ∀ n, (oracle A.id n).isErr = true)
    (hBok : oracle B.id 0 = .ok rB tB)
    (hArc : A.retry_count = 0) (hArm : A.max_retries = 3)
    (hAdep : A.dependencies = []) (hBdep : B.dependencies = [])
    (hCdep : C.dependencies = [A.id, B.id])
    (hAB : A.id ≠ B.id)
    (htime : ∀ k, elapsed k ≤ max_execution_time) :
    ∃ A' : Step, A'.id = A.id ∧ A'.status = .failed ∧
      execute_plan_aux oracle alt elapsed [A, B, C] ⟨[], [], [], []⟩ 0 =
        ⟨[step_success B rB tB], [A'],
         [A', step_success B rB tB, step_skipped C], [A.id, A.id, B.id]⟩ := by
  obtain ⟨msg, t, heA⟩ := execute_step_fail_eq oracle [] A (hAfail _)
  have hA1rc : (step_failed A msg t).retry_count <
      (step_failed A msg t).max_retries := by
    simp [step_failed, hArc, hArm]
  obtain ⟨A', heR, hA'id, hA'st⟩ :=
    retry_step_fail_eq oracle alt [A.id] (step_failed A msg t) hA1rc hAfail
  have hfid : (step_failed A msg t).id = A.id := rfl
  have hsid : (step_success B rB tB).id = B.id := rfl
  have hBattempt : attempt_of [A.id, A.id] B.id = 0 := by
    simp [attempt_of, List.filter, beq_eq_false_iff_ne.mpr hAB]
  have heB := execute_step_ok_eq oracle [A.id, A.id] B rB tB
    (by rw [hBattempt]; exact hBok)
  have hcheckA : check_dependencies A ([] : List Step) = true := by
    simp [check_dependencies, hAdep]
  have hcheckB : check_dependencies B ([] : List Step) = true := by
    simp [check_dependencies, hBdep]
  have hcheckC : check_dependencies C [step_success B rB tB] = false := by
    simp [check_dependencies, hCdep, step_success, hAB]
  have hnt : ∀ k, ¬ (max_execution_time < elapsed k) :=
    fun k => not_lt.mpr (htime k)
  refine ⟨A', hA'id, hA'st, ?_⟩
  simp only [execute_plan_aux]
  simp [hcheckA, hcheckB, hcheckC, heA, heR, heB, hfid, hsid, hnt,
    step_skipped, List.nil_append, List.cons_append]

/-- Helper: running the loop on the schedule [B, A, C] when A's tool always
raises, B's succeeds, and C depends on both. -/
theorem scenario_fold_BAC (oracle : ToolOracle) (alt : AltOracle)
    (elapsed : Nat → ℚ) (A B C : Step) (rB : Option String) (tB : ℚ)
    (hAfail : ∀ n, (oracle A.id n).isErr = true)
    (hBok : oracle B.id 0 = .ok rB tB)
    (hArc : A.retry_count = 0) (hArm : A.max_retries = 3)
    (hAdep : A.dependencies = []) (hBdep : B.dependencies = [])
    (hCdep : C.dependencies = [A.id, B.id])
    (hAB : A.id ≠ B.id)
    (htime : ∀ k, elapsed k ≤ max_execution_time) :
    ∃ A' : Step, A'.id = A.id ∧ A'.status = .failed ∧
      execute_plan_aux oracle alt elapsed [B, A, C] ⟨[], [], [], []⟩ 0 =
        ⟨[step_success B rB tB], [A'],
         [step_success B rB tB, A', step_skipped C], [B.id, A.id, A.id]⟩ := by
  obtain ⟨msg, t, heA⟩ := execute_step_fail_eq oracle [B.id] A (hAfail _)
  have hA1rc : (step_failed A msg t).retry_count <
      (step_failed A msg t).max_retries := by
    simp [step_failed, hArc, hArm]
  obtain ⟨A', heR, hA'id, hA'st⟩ :=
    retry_step_fail_eq oracle alt [B.id, A.id] (step_failed A msg t) hA1rc
      hAfail
  have hfid : (step_failed A msg t).id = A.id := rfl
  have hsid : (step_success B rB tB).id = B.id := rfl
  have heB := execute_step_ok_eq oracle [] B rB tB hBok
  have hcheckA : check_dependencies A [step_success B rB tB] = true := by
    simp [check_dependencies, hAdep]
  have hcheckB : check_dependencies B ([] : List Step) = true := by
    simp [check_dependencies, hBdep]
  have hcheckC : check_dependencies C [step_success B rB tB] = false := by
    simp [check_dependencies, hCdep, step_success, hAB]
  have hnt : ∀ k, ¬ (max_execution_time < elapsed k) :=
    fun k => not_lt.mpr (htime k)
  refine ⟨A', hA'id, hA'st, ?_⟩
  simp only [execute_plan_aux]
  simp [hcheckA, hcheckB, hcheckC, heA, heR, heB, hfid, hsid, hnt,
    step_skipped, List.nil_append, List.cons_append]

/-- C4: in a plan with independent steps A and B and a join step C depending
on both, when A's tool raises on every attempt (so A exhausts its retries
and ends failed) and B's tool succeeds, `execute_plan` marks C skipped and
never invokes C's tool, still executes B and records it as a success in
`completed_steps`, records a failed snapshot of A among `failed_steps`, and
reports the run unsuccessful. -/
theorem failed_step_skips_dependents_not_siblings (oracle : ToolOracle)
    (alt : AltOracle) (elapsed : Nat → ℚ) (plan : ExecutionPlan)
    (A B C : Step) (rB : Option String) (tB : ℚ)
    (hplan : plan.steps = [A, B, C])
    (hAB : A.id ≠ B.id) (hCA : C.id ≠ A.id) (hCB : C.id ≠ B.id)
    (hAdep : A.dependencies = []) (hBdep : B.dependencies = [])
    (hCdep : C.dependencies = [A.id, B.id])
    (hArc : A.retry_count = 0) (hArm : A.max_retries = 3)
    (hAfail : ∀ n, (oracle A.id n).isErr = true)
    (hBok : oracle B.id 0 = .ok rB tB)
    (htime : ∀ k, elapsed k ≤ max_execution_time) :
    step_skipped C ∈ (execute_plan oracle alt elapsed plan).2.1 ∧
    C.id ∉ (execute_plan oracle alt elapsed plan).2.2 ∧
    step_success B rB tB ∈
      (execute_plan oracle alt elapsed plan).1.completed_steps ∧
    (∃ A' ∈ (execute_plan oracle alt elapsed plan).1.failed_steps,
      A'.id = A.id ∧ A'.status = StepStatus.failed) ∧
    (execute_plan oracle alt elapsed plan).1.success = false := by
  have hsort := sort_steps_two_roots_then_join A B C hAB hAdep hBdep hCdep
  rcases hsort with hs | hs
  · obtain ⟨A', hA'id, hA'st, heq⟩ := scenario_fold_ABC oracle alt elapsed
      A B C rB tB hAfail hBok hArc hArm hAdep hBdep hCdep hAB htime
    have hmain : execute_plan_aux oracle alt elapsed (sort_steps plan.steps)
        ⟨[], [], [], []⟩ 0 =
        ⟨[step_success B rB tB], [A'],
         [A', step_success B rB tB, step_skipped C], [A.id, A.id, B.id]⟩ := by
      rw [hplan, hs]
      exact heq
    refine ⟨?_, ?_, ?_, ⟨A', ?_, hA'id, hA'st⟩, ?_⟩
    · show step_skipped C ∈ (execute_plan_aux oracle alt elapsed
        (sort_steps plan.steps) ⟨[], [], [], []⟩ 0).finals
      rw [hmain]
      simp
    · show C.id ∉ (execute_plan_aux oracle alt elapsed
        (sort_steps plan.steps) ⟨[], [], [], []⟩ 0).log
      rw [hmain]
      simp [hCA, hCB]
    · show step_success B rB tB ∈ (execute_plan_aux oracle alt elapsed
        (sort_steps plan.steps) ⟨[], [], [], []⟩ 0).completed
      rw [hmain]
      simp
    · show A' ∈ (execute_plan_aux oracle alt elapsed
        (sort_steps plan.steps) ⟨[], [], [], []⟩ 0).failed
      rw [hmain]
      simp
    · show ((execute_plan_aux oracle alt elapsed
        (sort_steps plan.steps) ⟨[], [], [], []⟩ 0).failed).isEmpty = false
      rw [hmain]
      rfl
  · obtain ⟨A', hA'id, hA'st, heq⟩ := scenario_fold_BAC oracle alt elapsed
      A B C rB tB hAfail hBok hArc hArm hAdep hBdep hCdep hAB htime
    have hmain : execute_plan_aux oracle alt elapsed (sort_steps plan.steps)
        ⟨[], [], [], []⟩ 0 =
        ⟨[step_success B rB tB], [A'],
         [step_success B rB tB, A', step_skipped C], [B.id, A.id, A.id]⟩ := by
      rw [hplan, hs]
      exact heq
    refine ⟨?_, ?_, ?_, ⟨A', ?_, hA'id, hA'st⟩, ?_⟩
    · show step_skipped C ∈ (execute_plan_aux oracle alt elapsed
        (sort_steps plan.steps) ⟨[], [], [], []⟩ 0).finals
      rw [hmain]
      simp
    · show C.id ∉ (execute_plan_aux oracle alt elapsed
        (sort_steps plan.steps) ⟨[], [], [], []⟩ 0).log
      rw [hmain]
      simp [hCA, hCB]
    · show step_success B rB tB ∈ (execute_plan_aux oracle alt elapsed
        (sort_steps plan.steps) ⟨[], [], [], []⟩ 0).completed
      rw [hmain]
      simp
    · show A' ∈ (execute_plan_aux oracle alt elapsed
        (sort_steps plan.steps) ⟨[], [], [], []⟩ 0).failed
      rw [hmain]
      simp
    · show ((execute_plan_aux oracle alt elapsed
        (sort_steps plan.steps) ⟨[], [], [], []⟩ 0).failed).isEmpty = false
      rw [hmain]
      rfl

/-- Witness for the C4 theorem on a concrete three-step plan. -/
theorem failed_step_skips_dependents_witness :
    (oracle_abc step_a.id 0).isErr = true ∧
    step_skipped step_c ∈
      (execute_plan oracle_abc alt_none clock_zero plan_abc).2.1 ∧
    step_c.id ∉ (execute_plan oracle_abc alt_none clock_zero plan_abc).2.2 ∧
    step_success step_b (some "ok") 1 ∈
      (execute_plan oracle_abc alt_none clock_zero plan_abc).1.completed_steps :=
  ⟨by decide,
    (failed_step_skips_dependents_not_siblings oracle_abc alt_none clock_zero
      plan_abc step_a step_b step_c (some "ok") 1 rfl (by decide) (by decide)
      (by decide) rfl rfl rfl rfl rfl (fun _ => rfl) rfl
      (fun _ => (by decide : (0 : ℚ) ≤ max_execution_time))).1,
    (failed_step_skips_dependents_not_siblings oracle_abc alt_none clock_zero
      plan_abc step_a step_b step_c (some "ok") 1 rfl (by decide) (by decide)
      (by decide) rfl rfl rfl rfl rfl (fun _ => rfl) rfl
      (fun _ => (by decide : (0 : ℚ) ≤ max_execution_time))).2.1,
    (failed_step_skips_dependents_not_siblings oracle_abc alt_none clock_zero
      plan_abc step_a step_b step_c (some "ok") 1 rfl (by decide) (by decide)
      (by decide) rfl rfl rfl rfl rfl (fun _ => rfl) rfl
      (fun _ => (by decide : (0 : ℚ) ≤ max_execution_time))).2.2.1⟩

theorem edge_source_is_step (steps : List Step) (a b : String)
    (h : Edge steps a b) : ∃ s ∈ steps, s.id = a := by
  unfold Edge adjacency at h
  cases hf : steps.find? (fun s => s.id == a) with
  | none => rw [hf] at h; exact absurd h (List.not_mem_nil b)
  | some s =>
    refine ⟨s, List.mem_of_find?_eq_some hf, ?_⟩
    have := List.find?_some hf
    exact eq_of_beq this

theorem adjacency_sub_all_ids (steps : List Step) (u : String) :
    adjacency steps u ⊆ all_ids steps := by
  unfold adjacency
  cases hf : steps.find? (fun s => s.id == u) with
  | none => simp
  | some s =>
    intro d hd
    unfold all_ids
    refine List.mem_append_right _ ?_
    refine List.mem_flatten.mpr ⟨s.dependencies, ?_, hd⟩
    exact List.mem_map_of_mem (fun s => s.dependencies)
      (List.mem_of_find?_eq_some hf)

theorem step_id_mem_all_ids (steps : List Step) (s : Step)
    (h : s ∈ steps) : s.id ∈ all_ids steps :=
  List.mem_append_left _ (List.mem_map_of_mem (fun s => s.id) h)

theorem black_reach (steps : List Step) (V R : List String)
    (hc : BlacksClosed steps V R) (w z : String) (hw : w ∈ V) (hwr : w ∉ R)
    (h : Relation.ReflTransGen (Edge steps) w z) : z ∈ V ∧ z ∉ R := by
  induction h with
  | refl => exact ⟨hw, hwr⟩
  | tail hsub hstep ih => exact hc _ ih.1 ih.2 _ hstep

theorem chain_reaches (steps : List Step) :
    ∀ (t : List String) (a : String), StackChain steps (a :: t) →
      ∀ d ∈ a :: t, Relation.ReflTransGen (Edge steps) d a := by
  intro t
  induction t with
  | nil =>
    intro a _ d hd
    have : d = a := by simpa using hd
    exact this ▸ Relation.ReflTransGen.refl
  | cons b t' ih =>
    intro a hchain d hd
    obtain ⟨hedge, hrest⟩ : Edge steps b a ∧ StackChain steps (b :: t') :=
      hchain
    rcases List.mem_cons.mp hd with h | h
    · exact h ▸ Relation.ReflTransGen.refl
    · exact Relation.ReflTransGen.tail (ih b hrest d h) hedge

theorem blacks_closed_push (steps : List Step) (v rs : List String)
    (u : String) (hu : u ∉ v) (hc : BlacksClosed steps v rs) :
    BlacksClosed steps (u :: v) (u :: rs) := by
  intro x hx hxr w hw
  have hxu : x ≠ u := fun h => hxr (h ▸ List.mem_cons_self u rs)
  have hxv : x ∈ v := by
    rcases List.mem_cons.mp hx with h | h
    · exact absurd h hxu
    · exact h
  have hxr' : x ∉ rs := fun h => hxr (List.mem_cons_of_mem u h)
  obtain ⟨hwv, hwr⟩ := hc x hxv hxr' w hw
  have hwu : w ≠ u := fun h => hu (h ▸ hwv)
  exact ⟨List.mem_cons_of_mem u hwv,
    fun h => (List.mem_cons.mp h).elim hwu hwr⟩

theorem no_black_cycle_push (steps : List Step) (v rs : List String)
    (u : String) (hn : NoBlackCycle steps v rs) :
    NoBlackCycle steps (u :: v) (u :: rs) := by
  intro x hx hxr
  have hxu : x ≠ u := fun h => hxr (h ▸ List.mem_cons_self u rs)
  have hxv : x ∈ v := by
    rcases List.mem_cons.mp hx with h | h
    · exact absurd h hxu
    · exact h
  exact hn x hxv (fun h => hxr (List.mem_cons_of_mem u h))

theorem blacks_closed_pop (steps : List Step) (v' rs : List String)
    (u : String) (hc : BlacksClosed steps v' (u :: rs))
    (hadj : ∀ d, Edge steps u d → d ∈ v' ∧ d ∉ (u :: rs)) (_hu : u ∈ v') :
    BlacksClosed steps v' rs := by
  intro x hx hxr w hw
  by_cases hxu : x = u
  · obtain ⟨hwv, hwr⟩ := hadj w (hxu ▸ hw)
    exact ⟨hwv, fun h => hwr (List.mem_cons_of_mem u h)⟩
  · obtain ⟨hwv, hwr⟩ := hc x hx
      (fun h => (List.mem_cons.mp h).elim hxu hxr) w hw
    exact ⟨hwv, fun h => hwr (List.mem_cons_of_mem u h)⟩

theorem no_black_cycle_pop (steps : List Step) (v' rs : List String)
    (u : String) (hc : BlacksClosed steps v' (u :: rs))
    (hn : NoBlackCycle steps v' (u :: rs))
    (hadj : ∀ d, Edge steps u d → d ∈ v' ∧ d ∉ (u :: rs)) (_hu : u ∈ v') :
    NoBlackCycle steps v' rs := by
  intro x hx hxr
  by_cases hxu : x = u
  · subst hxu
    intro hcyc
    obtain ⟨c, hxc, hcx⟩ := Relation.TransGen.head'_iff.mp hcyc
    obtain ⟨hcv, hcr⟩ := hadj c hxc
    exact (black_reach steps v' (x :: rs) hc c x hcv hcr hcx).2
      (List.mem_cons_self x rs)
  · exact hn x hx (fun h => (List.mem_cons.mp h).elim hxu hxr)


theorem dfs_deps_mono
    (visit : String → List String → List String →
      Option (Bool × List String)) (hv : VisitMono visit) :
    ∀ (deps v rs : List String) (b : Bool) (v' : List String),
      dfs_deps visit deps v rs = some (b, v') → v ⊆ v' := by
  intro deps
  induction deps with
  | nil =>
    intro v rs b v' h
    simp only [dfs_deps, Option.some.injEq, Prod.mk.injEq] at h
    exact h.2 ▸ List.Subset.refl v
  | cons d rest ih =>
    intro v rs b v' h
    unfold dfs_deps at h
    by_cases hd : d ∈ v
    · rw [if_pos hd] at h
      by_cases hr : d ∈ rs
      · rw [if_pos hr] at h
        simp only [Option.some.injEq, Prod.mk.injEq] at h
        exact h.2 ▸ List.Subset.refl v
      · rw [if_neg hr] at h
        exact ih v rs b v' h
    · rw [if_neg hd] at h
      cases hvis : visit d v rs with
      | none => rw [hvis] at h; simp at h
      | some p =>
        obtain ⟨bb, v''⟩ := p
        rw [hvis] at h
        rcases bb with _ | _
        · exact (hv d v rs false v'' hvis).trans (ih v'' rs b v' h)
        · simp only [Option.some.injEq, Prod.mk.injEq] at h
          exact h.2 ▸ hv d v rs true v'' hvis

theorem dfs_visit_mono (steps : List Step) :
    ∀ fuel, VisitMono (dfs_visit steps fuel) := by
  intro fuel
  induction fuel with
  | zero => intro d v rs b v' h; simp [dfs_visit] at h
  | succ fuel ih =>
    intro d v rs b v' h
    have h' : dfs_deps (dfs_visit steps fuel) (adjacency steps d) (d :: v)
        (d :: rs) = some (b, v') := h
    exact (List.subset_cons_self d v).trans
      (dfs_deps_mono _ ih _ _ _ _ _ h')

theorem dfs_deps_spec (steps : List Step)
    (visit : String → List String → List String →
      Option (Bool × List String))
    (_hmono : VisitMono visit) (hgood : GoodVisit steps visit) :
    ∀ (deps : List String) (u : String) (rs v : List String) (b : Bool)
      (v' : List String),
      (u :: rs) ⊆ v → BlacksClosed steps v (u :: rs) →
      NoBlackCycle steps v (u :: rs) → StackChain steps (u :: rs) →
      (∀ d ∈ deps, Edge steps u d) →
      dfs_deps visit deps v (u :: rs) = some (b, v') →
      v ⊆ v' ∧ (b = true → Cyclic steps) ∧
        (b = false → BlacksClosed steps v' (u :: rs) ∧
          NoBlackCycle steps v' (u :: rs) ∧
          ∀ d ∈ deps, d ∈ v' ∧ d ∉ (u :: rs)) := by
  intro deps
  induction deps with
  | nil =>
    intro u rs v b v' hsub hbc hnc hch hdeps h
    simp only [dfs_deps, Option.some.injEq, Prod.mk.injEq] at h
    obtain ⟨hb, hv⟩ := h
    subst hb
    subst hv
    exact ⟨List.Subset.refl v, by simp, fun _ => ⟨hbc, hnc, by simp⟩⟩
  | cons d rest ih =>
    intro u rs v b v' hsub hbc hnc hch hdeps h
    have hedge : Edge steps u d := hdeps d (List.mem_cons_self _ _)
    have hrest : ∀ x ∈ rest, Edge steps u x :=
      fun x hx => hdeps x (List.mem_cons_of_mem _ hx)
    unfold dfs_deps at h
    by_cases hd : d ∈ v
    · rw [if_pos hd] at h
      by_cases hr : d ∈ u :: rs
      · rw [if_pos hr] at h
        simp only [Option.some.injEq, Prod.mk.injEq] at h
        obtain ⟨hb, hv⟩ := h
        subst hb
        subst hv
        refine ⟨List.Subset.refl v, fun _ => ?_, by simp⟩
        exact ⟨d, Relation.TransGen.tail'
          (chain_reaches steps rs u hch d hr) hedge⟩
      · rw [if_neg hr] at h
        obtain ⟨hsub', hcyc, hfalse⟩ := ih u rs v b v' hsub hbc hnc hch
          hrest h
        refine ⟨hsub', hcyc, fun hb => ?_⟩
        obtain ⟨hbc', hnc', hrest'⟩ := hfalse hb
        refine ⟨hbc', hnc', ?_⟩
        intro x hx
        rcases List.mem_cons.mp hx with hxd | hxr
        · exact ⟨hxd ▸ hsub' hd, hxd ▸ hr⟩
        · exact hrest' x hxr
    · rw [if_neg hd] at h
      cases hvis : visit d v (u :: rs) with
      | none => rw [hvis] at h; simp at h
      | some p =>
        obtain ⟨bb, v''⟩ := p
        rw [hvis] at h
        have hg := hgood d v (u :: rs) bb v'' hsub hbc hnc
          (⟨hedge, hch⟩ : StackChain steps (d :: u :: rs)) hd hvis
        obtain ⟨hvsub, hdv, hbcyc, hbfalse⟩ := hg
        rcases bb with _ | _
        · obtain ⟨hbc'', hnc''⟩ := hbfalse rfl
          obtain ⟨hsub', hcyc, hfalse⟩ := ih u rs v'' b v'
            (hsub.trans hvsub) hbc'' hnc'' hch hrest h
          refine ⟨hvsub.trans hsub', hcyc, fun hb => ?_⟩
          obtain ⟨hbc3, hnc3, hrest3⟩ := hfalse hb
          refine ⟨hbc3, hnc3, ?_⟩
          intro x hx
          rcases List.mem_cons.mp hx with hxd | hxr
          · subst hxd
            exact ⟨hsub' hdv, fun hmem => hd (hsub hmem)⟩
          · exact hrest3 x hxr
        · simp only [Option.some.injEq, Prod.mk.injEq] at h
          obtain ⟨hb, hv⟩ := h
          subst hb
          subst hv
          exact ⟨hvsub, fun _ => hbcyc rfl, by simp⟩

theorem dfs_visit_good (steps : List Step) :
    ∀ fuel, GoodVisit steps (dfs_visit steps fuel) := by
  intro fuel
  induction fuel with
  | zero => intro u v rs b v' _ _ _ _ _ h; simp [dfs_visit] at h
  | succ fuel ih =>
    intro u v rs b v' hrs hbc hnc hch hu h
    have h' : dfs_deps (dfs_visit steps fuel) (adjacency steps u) (u :: v)
        (u :: rs) = some (b, v') := h
    have hsub : (u :: rs) ⊆ u :: v :=
      List.cons_subset.mpr ⟨List.mem_cons_self u v,
        hrs.trans (List.subset_cons_self u v)⟩
    obtain ⟨hsub', hcyc, hfalse⟩ := dfs_deps_spec steps _
      (dfs_visit_mono steps fuel) ih (adjacency steps u) u rs (u :: v) b v'
      hsub (blacks_closed_push steps v rs u hu hbc)
      (no_black_cycle_push steps v rs u hnc) hch (fun d hd => hd) h'
    have huv' : u ∈ v' := hsub' (List.mem_cons_self u v)
    refine ⟨(List.subset_cons_self u v).trans hsub', huv', hcyc,
      fun hb => ?_⟩
    obtain ⟨hbc'', hnc'', hadj⟩ := hfalse hb
    have hadj' : ∀ x, Edge steps u x → x ∈ v' ∧ x ∉ (u :: rs) :=
      fun x hx => hadj x hx
    exact ⟨blacks_closed_pop steps v' rs u hbc'' hadj' huv',
      no_black_cycle_pop steps v' rs u hbc'' hnc'' hadj' huv'⟩


theorem filter_decide_length_mono (p q : String → Prop) [DecidablePred p]
    [DecidablePred q] (hpq : ∀ x, p x → q x) (l : List String) :
    (l.filter (fun x => decide (p x))).length ≤
      (l.filter (fun x => decide (q x))).length := by
  induction l with
  | nil => simp
  | cons a l' ih =>
    by_cases hp : p a
    · have hq := hpq a hp
      simp [List.filter_cons, hp, hq]
      omega
    · by_cases hq : q a
      · simp [List.filter_cons, hp, hq]
        omega
      · simp [List.filter_cons, hp, hq]
        exact ih

theorem filter_decide_length_lt (p q : String → Prop) [DecidablePred p]
    [DecidablePred q] (hpq : ∀ x, p x → q x) (u : String) (hup : ¬ p u)
    (huq : q u) :
    ∀ l : List String, u ∈ l →
      (l.filter (fun x => decide (p x))).length <
        (l.filter (fun x => decide (q x))).length := by
  intro l
  induction l with
  | nil => intro h; exact absurd h (List.not_mem_nil u)
  | cons a l' ih =>
    intro hmem
    rcases List.mem_cons.mp hmem with hau | hul
    · subst hau
      have hmono := filter_decide_length_mono p q hpq l'
      simp [List.filter_cons, hup, huq]
      omega
    · have hlt := ih hul
      by_cases hp : p a
      · have hq := hpq a hp
        simp [List.filter_cons, hp, hq]
        omega
      · by_cases hq : q a
        · simp [List.filter_cons, hp, hq]
          omega
        · simp [List.filter_cons, hp, hq]
          exact hlt

theorem unvisited_mono (steps : List Step) (v v' : List String)
    (h : v ⊆ v') : unvisited_count steps v' ≤ unvisited_count steps v := by
  unfold unvisited_count
  exact filter_decide_length_mono (fun x => x ∉ v') (fun x => x ∉ v)
    (fun x hx hxv => hx (h hxv)) (all_ids steps).dedup

theorem unvisited_push_lt (steps : List Step) (u : String)
    (v : List String) (hu1 : u ∈ all_ids steps) (hu2 : u ∉ v) :
    unvisited_count steps (u :: v) < unvisited_count steps v := by
  unfold unvisited_count
  exact filter_decide_length_lt (fun x => x ∉ u :: v) (fun x => x ∉ v)
    (fun x hx hxv => hx (List.mem_cons_of_mem u hxv)) u
    (fun h => h (List.mem_cons_self u v)) hu2 (all_ids steps).dedup
    (List.mem_dedup.mpr hu1)

theorem unvisited_lt_fuel (steps : List Step) (v : List String) :
    unvisited_count steps v < fuel_of steps := by
  unfold unvisited_count fuel_of
  have h1 := List.length_filter_le (fun x => decide (x ∉ v))
    (all_ids steps).dedup
  have h2 := List.Sublist.length_le (List.dedup_sublist (all_ids steps))
  omega

theorem dfs_deps_total (steps : List Step)
    (visit : String → List String → List String →
      Option (Bool × List String)) (Ok : List String → Prop)
    (hOk : ∀ v v', v ⊆ v' → Ok v → Ok v') (hmono : VisitMono visit)
    (htot : ∀ d v rs, d ∈ all_ids steps → d ∉ v → Ok v →
      visit d v rs ≠ none) :
    ∀ (deps v rs : List String), (∀ d ∈ deps, d ∈ all_ids steps) → Ok v →
      dfs_deps visit deps v rs ≠ none := by
  intro deps
  induction deps with
  | nil => intro v rs _ _; simp [dfs_deps]
  | cons d rest ih =>
    intro v rs hdeps hOkv
    unfold dfs_deps
    by_cases hd : d ∈ v
    · rw [if_pos hd]
      by_cases hr : d ∈ rs
      · rw [if_pos hr]; simp
      · rw [if_neg hr]
        exact ih v rs (fun x hx => hdeps x (List.mem_cons_of_mem _ hx)) hOkv
    · rw [if_neg hd]
      cases hvis : visit d v rs with
      | none =>
        exact absurd hvis
          (htot d v rs (hdeps d (List.mem_cons_self _ _)) hd hOkv)
      | some p =>
        obtain ⟨bb, v''⟩ := p
        rcases bb with _ | _
        · exact ih v'' rs (fun x hx => hdeps x (List.mem_cons_of_mem _ hx))
            (hOk v v'' (hmono d v rs false v'' hvis) hOkv)
        · simp

theorem dfs_visit_total (steps : List Step) :
    ∀ (fuel : Nat) (u : String) (v rs : List String),
      u ∈ all_ids steps → u ∉ v → unvisited_count steps v < fuel →
      dfs_visit steps fuel u v rs ≠ none := by
  intro fuel
  induction fuel with
  | zero => intro u v rs _ _ h; exact absurd h (Nat.not_lt_zero _)
  | succ fuel ih =>
    intro u v rs hu hv hcount
    show dfs_deps (dfs_visit steps fuel) (adjacency steps u) (u :: v)
      (u :: rs) ≠ none
    refine dfs_deps_total steps _
      (fun v0 => unvisited_count steps v0 < fuel)
      (fun v1 v2 h12 hOk => lt_of_le_of_lt (unvisited_mono steps v1 v2 h12)
        hOk)
      (dfs_visit_mono steps fuel)
      (fun d v0 rs0 hd hdv hOkv => ih d v0 rs0 hd hdv hOkv)
      (adjacency steps u) (u :: v) (u :: rs)
      (fun d hd => adjacency_sub_all_ids steps u hd) ?_
    have h1 := unvisited_push_lt steps u v hu hv
    omega

theorem dfs_forest_spec (steps : List Step) (fuel : Nat) :
    ∀ (l : List Step) (v : List String) (b : Bool) (v' : List String),
      BlacksClosed steps v [] → NoBlackCycle steps v [] →
      dfs_forest steps fuel l v = some (b, v') →
      v ⊆ v' ∧ (b = true → Cyclic steps) ∧
        (b = false → BlacksClosed steps v' [] ∧ NoBlackCycle steps v' [] ∧
          ∀ s ∈ l, s.id ∈ v') := by
  intro l
  induction l with
  | nil =>
    intro v b v' hbc hnc h
    simp only [dfs_forest, Option.some.injEq, Prod.mk.injEq] at h
    obtain ⟨hb, hv⟩ := h
    subst hb
    subst hv
    exact ⟨List.Subset.refl v, by simp, fun _ => ⟨hbc, hnc, by simp⟩⟩
  | cons s rest ih =>
    intro v b v' hbc hnc h
    unfold dfs_forest at h
    by_cases hs : s.id ∈ v
    · rw [if_pos hs] at h
      obtain ⟨hsub, hcyc, hfalse⟩ := ih v b v' hbc hnc h
      refine ⟨hsub, hcyc, fun hb => ?_⟩
      obtain ⟨a1, a2, a3⟩ := hfalse hb
      refine ⟨a1, a2, ?_⟩
      intro x hx
      rcases List.mem_cons.mp hx with h1 | h2
      · exact h1 ▸ hsub hs
      · exact a3 x h2
    · rw [if_neg hs] at h
      cases hvis : dfs_visit steps fuel s.id v [] with
      | none => rw [hvis] at h; simp at h
      | some p =>
        obtain ⟨bb, v''⟩ := p
        rw [hvis] at h
        have hg := dfs_visit_good steps fuel s.id v [] bb v''
          (List.nil_subset v) hbc hnc trivial hs hvis
        obtain ⟨hvsub, hsv, hbcyc, hbfalse⟩ := hg
        rcases bb with _ | _
        · obtain ⟨hbc', hnc'⟩ := hbfalse rfl
          obtain ⟨hsub', hcyc, hfalse⟩ := ih v'' b v' hbc' hnc' h
          refine ⟨hvsub.trans hsub', hcyc, fun hb => ?_⟩
          obtain ⟨a1, a2, a3⟩ := hfalse hb
          refine ⟨a1, a2, ?_⟩
          intro x hx
          rcases List.mem_cons.mp hx with h1 | h2
          · exact h1 ▸ hsub' hsv
          · exact a3 x h2
        · simp only [Option.some.injEq, Prod.mk.injEq] at h
          obtain ⟨hb, hv⟩ := h
          subst hb
          subst hv
          exact ⟨hvsub, fun _ => hbcyc rfl, by simp⟩

theorem dfs_forest_total (steps : List Step) :
    ∀ (l : List Step) (v : List String), (∀ s ∈ l, s ∈ steps) →
      dfs_forest steps (fuel_of steps) l v ≠ none := by
  intro l
  induction l with
  | nil => intro v _; simp [dfs_forest]
  | cons s rest ih =>
    intro v hl
    unfold dfs_forest
    by_cases hs : s.id ∈ v
    · rw [if_pos hs]
      exact ih v (fun x hx => hl x (List.mem_cons_of_mem _ hx))
    · rw [if_neg hs]
      cases hvis : dfs_visit steps (fuel_of steps) s.id v [] with
      | none =>
        exact absurd hvis (dfs_visit_total steps (fuel_of steps) s.id v []
          (step_id_mem_all_ids steps s (hl s (List.mem_cons_self _ _))) hs
          (unvisited_lt_fuel steps v))
      | some p =>
        obtain ⟨bb, v''⟩ := p
        rcases bb with _ | _
        · exact ih v'' (fun x hx => hl x (List.mem_cons_of_mem _ hx))
        · simp


theorem has_circular_sound (steps : List Step)
    (h : has_circular_dependencies steps = true) : Cyclic steps := by
  unfold has_circular_dependencies at h
  cases hf : dfs_forest steps (fuel_of steps) steps [] with
  | none => exact absurd hf (dfs_forest_total steps steps [] (fun s hs => hs))
  | some p =>
    obtain ⟨b, v'⟩ := p
    rw [hf] at h
    rcases b with _ | _
    · exact absurd (h : false = true) (by simp)
    · exact (dfs_forest_spec steps (fuel_of steps) steps [] true v'
        (fun u hu => absurd hu (List.not_mem_nil u))
        (fun u hu => absurd hu (List.not_mem_nil u)) hf).2.1 rfl

theorem has_circular_complete (steps : List Step) (h : Cyclic steps) :
    has_circular_dependencies steps = true := by
  by_contra hne
  have hfalse : has_circular_dependencies steps = false := by
    cases hb : has_circular_dependencies steps
    · rfl
    · exact absurd hb hne
  unfold has_circular_dependencies at hfalse
  cases hf : dfs_forest steps (fuel_of steps) steps [] with
  | none =>
    rw [hf] at hfalse
    exact absurd (hfalse : true = false) (by simp)
  | some p =>
    obtain ⟨b, v'⟩ := p
    rw [hf] at hfalse
    rcases b with _ | _
    · obtain ⟨a, ha⟩ := h
      obtain ⟨w, haw, _⟩ := Relation.TransGen.head'_iff.mp ha
      obtain ⟨s, hsmem, hsid⟩ := edge_source_is_step steps a w haw
      have hspec := dfs_forest_spec steps (fuel_of steps) steps [] false v'
        (fun u hu => absurd hu (List.not_mem_nil u))
        (fun u hu => absurd hu (List.not_mem_nil u)) hf
      obtain ⟨_, hnc, hall⟩ := hspec.2.2 rfl
      exact hnc a (hsid ▸ hall s hsmem) (List.not_mem_nil a) ha
    · exact absurd (hfalse : true = false) (by simp)

/-- C3: `validate_plan` rejects (returns `false` with a non-empty issue
list) every plan with a dependency cycle, an unregistered tool, or a
dependency id that names no step of the plan; and it accepts (returns
`(true, [])`) the empty plan and every acyclic plan whose tools are all
registered and whose dependencies all reference in-plan step ids. -/
theorem validate_plan_correct :
    (∀ (registry : List String) (plan : ExecutionPlan),
      Cyclic plan.steps ∨ (∃ s ∈ plan.steps, s.tool ∉ registry) ∨
        (∃ s ∈ plan.steps, ∃ d ∈ s.dependencies, d ∉ step_ids plan.steps) →
      (validate_plan registry plan).1 = false ∧
        (validate_plan registry plan).2 ≠ []) ∧
    (∀ (registry : List String) (plan : ExecutionPlan), plan.steps = [] →
      validate_plan registry plan = (true, [])) ∧
    (∀ (registry : List String) (plan : ExecutionPlan),
      ¬ Cyclic plan.steps → (∀ s ∈ plan.steps, s.tool ∈ registry) →
      (∀ s ∈ plan.steps, ∀ d ∈ s.dependencies, d ∈ step_ids plan.steps) →
      validate_plan registry plan = (true, [])) := by
  refine ⟨?_, ?_, ?_⟩
  · intro registry plan hsrc
    have hmem : ∃ m, m ∈ (validate_plan registry plan).2 := by
      rcases hsrc with hcyc | ⟨s, hs, htool⟩ | ⟨s, hs, d, hd, hdep⟩
      · refine ⟨"Обнаружены циклические зависимости", ?_⟩
        show _ ∈ _ ++ _ ++ _
        refine List.mem_append_right _ ?_
        rw [has_circular_complete plan.steps hcyc]
        exact List.mem_singleton.mpr rfl
      · refine ⟨"Шаг " ++ s.id ++ ": инструмент " ++ s.tool ++ " не найден",
          ?_⟩
        show _ ∈ _ ++ _ ++ _
        refine List.mem_append_left _ (List.mem_append_left _ ?_)
        exact List.mem_filterMap.mpr ⟨s, hs, by simp [htool]⟩
      · refine ⟨"Шаг " ++ s.id ++ ": зависимость " ++ d ++ " не найдена", ?_⟩
        show _ ∈ _ ++ _ ++ _
        refine List.mem_append_left _ (List.mem_append_right _ ?_)
        refine List.mem_flatten.mpr ⟨_, List.mem_map_of_mem _ hs, ?_⟩
        exact List.mem_filterMap.mpr ⟨d, hd, by simp [hdep]⟩
    obtain ⟨m, hm⟩ := hmem
    have hne : (validate_plan registry plan).2 ≠ [] := List.ne_nil_of_mem hm
    refine ⟨?_, hne⟩
    have h12 : (validate_plan registry plan).1 =
        ((validate_plan registry plan).2).isEmpty := rfl
    rw [h12]
    cases hv : (validate_plan registry plan).2 with
    | nil => exact absurd hv hne
    | cons a l => rfl
  · intro registry plan hsteps
    unfold validate_plan
    rw [hsteps]
    rfl
  · intro registry plan hacyc htools hdeps
    have hc : has_circular_dependencies plan.steps = false := by
      cases hb : has_circular_dependencies plan.steps
      · rfl
      · exact absurd (has_circular_sound plan.steps hb) hacyc
    have htool_nil : plan.steps.filterMap (fun s =>
        if s.tool ∈ registry then none
        else some ("Шаг " ++ s.id ++ ": инструмент " ++ s.tool
          ++ " не найден")) = [] := by
      rw [List.filterMap_eq_nil_iff]
      intro s hs
      simp [htools s hs]
    have hdep_nil : (plan.steps.map (fun s =>
        s.dependencies.filterMap (fun dep =>
          if dep ∈ step_ids plan.steps then none
          else some ("Шаг " ++ s.id ++ ": зависимость " ++ dep
            ++ " не найдена")))).flatten = [] := by
      rw [List.flatten_eq_nil_iff]
      intro l hl
      obtain ⟨s, hs, hsl⟩ := List.mem_map.mp hl
      subst hsl
      rw [List.filterMap_eq_nil_iff]
      intro d hd
      simp [hdeps s hs d hd]
    unfold validate_plan
    rw [htool_nil, hdep_nil, hc]
    rfl

/-- Witness for the C3 theorem: a concrete cyclic plan is rejected with a
non-empty issue list, and a concrete acyclic well-formed plan is accepted
with no issues. -/
theorem validate_plan_correct_witness :
    ((validate_plan demo_registry plan_cyclic).1 = false ∧
      (validate_plan demo_registry plan_cyclic).2 ≠ []) ∧
    validate_plan demo_registry plan_ok = (true, []) := by
  constructor
  · refine validate_plan_correct.1 demo_registry plan_cyclic (Or.inl ?_)
    have e1 : Edge plan_cyclic.steps "x" "y" := by
      show "y" ∈ adjacency plan_cyclic.steps "x"
      decide
    have e2 : Edge plan_cyclic.steps "y" "x" := by
      show "x" ∈ adjacency plan_cyclic.steps "y"
      decide
    exact ⟨"x", Relation.TransGen.head e1 (Relation.TransGen.single e2)⟩
  · have hfalse : has_circular_dependencies plan_ok.steps = false := by decide
    refine validate_plan_correct.2.2 demo_registry plan_ok ?_ ?_ ?_
    · intro hcyc
      rw [has_circular_complete plan_ok.steps hcyc] at hfalse
      exact absurd hfalse (by simp)
    · intro s hs
      fin_cases hs <;> decide
    · intro s hs
      fin_cases hs <;> intro d hd <;> simp_all [step_ids, plan_ok]

end Jarilo
